import Mathlib

/-!
Verification development for the AI-Ops Companion core
(src/core/safeguards.py, src/core/runner.py, src/core/prompts.py).

The embedding is shallow: Python strings are lists of characters
(`Str`), Python integers are `Nat`, fallible code returns `Option` or
`Except`, and the stateful event-log persistence is explicit state
passing over a small file-system state.  Regular expressions from the
source are embedded through a small backtracking regex engine whose
match enumeration order mirrors Python's `re` (leftmost position,
alternation left-first, greedy repetition longest-first).
-/

namespace AIOps

/-- Char-list model of a Python `str`. -/
abbrev Str := List Char

/-! ## Chunker: `_token_chunks` from src/core/runner.py -/

/-- Fueled model of the `while i < len(ids)` loop of `_token_chunks`.
`i` is the window start; each iteration emits `ids[i:end]` with
`end = min(i + max_src_tokens, len(ids))`, breaks when `end == len(ids)`,
and otherwise continues at `max(0, end - overlap_tokens)` (Nat
subtraction models Python's `max(0, ...)` clamp).  `none` means the fuel
ran out, i.e. the loop did not finish within `fuel` iterations. -/
def tokenChunksAux (ids : List Nat) (maxT ov : Nat) : Nat → Nat → Option (List (List Nat))
  | 0, _ => none
  | fuel + 1, i =>
    let endp := min (i + maxT) ids.length
    let chunk := (ids.drop i).take (endp - i)
    if endp = ids.length then some [chunk]
    else
      match tokenChunksAux ids maxT ov fuel (endp - ov) with
      | some rest => some (chunk :: rest)
      | none => none

/-- Model of `_token_chunks(text, tok, plan)` once the text has been
encoded to `ids`.  The early return for `len(ids) <= max_src_tokens`
is taken verbatim; otherwise the loop runs with enough fuel for any
terminating execution (`len(ids) + 1` iterations suffice whenever the
loop makes progress, i.e. `overlap < max`). -/
def tokenChunks (ids : List Nat) (maxT ov : Nat) : Option (List (List Nat)) :=
  if ids.length ≤ maxT then some [ids]
  else tokenChunksAux ids maxT ov (ids.length + 1) 0

/-- The sequence of `(start, end)` windows the loop of `_token_chunks`
walks through, starting at `i`: while `i + max < L` emit `(i, i + max)`
and advance by `max - overlap`, and finally emit `(i, L)`. -/
def winList (L maxT ov : Nat) (i : Nat) : List (Nat × Nat) :=
  if h : i + maxT < L ∧ ov < maxT then
    (i, i + maxT) :: winList L maxT ov (i + (maxT - ov))
  else
    [(i, L)]
termination_by L - i
decreasing_by
  rcases h with ⟨h1, h2⟩
  omega

/-- The windows of a whole run of `_token_chunks` on `ids`. -/
def chunkWindows (ids : List Nat) (maxT ov : Nat) : List (Nat × Nat) :=
  winList ids.length maxT ov 0

/-- Slice `ids[s:e]` of a token sequence. -/
def slice (ids : List Nat) (w : Nat × Nat) : List Nat :=
  (ids.drop w.1).take (w.2 - w.1)

theorem winList_eq_cons (L maxT ov i : Nat) (h1 : i + maxT < L) (h2 : ov < maxT) :
    winList L maxT ov i = (i, i + maxT) :: winList L maxT ov (i + (maxT - ov)) := by
  rw [winList]
  simp [h1, h2]

theorem winList_eq_last (L maxT ov i : Nat) (h : ¬ (i + maxT < L ∧ ov < maxT)) :
    winList L maxT ov i = [(i, L)] := by
  rw [winList]
  simp only [h]
  simp

/-- The fueled loop computes exactly the window slices, given enough fuel. -/
theorem tokenChunksAux_eq_winList (ids : List Nat) (maxT ov : Nat) (hov : ov < maxT) :
    ∀ fuel i, i < ids.length → ids.length - i ≤ fuel * (maxT - ov) →
      tokenChunksAux ids maxT ov fuel i =
        some ((winList ids.length maxT ov i).map (slice ids)) := by
  intro fuel
  induction fuel with
  | zero =>
    intro i hi hfuel
    omega
  | succ f ih =>
    intro i hi hfuel
    by_cases hend : i + maxT < ids.length
    · have hmin : min (i + maxT) ids.length = i + maxT := by omega
      have hne : ¬ (min (i + maxT) ids.length = ids.length) := by omega
      have hstep : i + maxT - ov = i + (maxT - ov) := by omega
      have hrec := ih (i + (maxT - ov)) (by omega) (by
        have : maxT - ov ≥ 1 := by omega
        calc ids.length - (i + (maxT - ov)) = ids.length - i - (maxT - ov) := by omega
          _ ≤ f * (maxT - ov) := by
              have := hfuel
              have hmul : (f + 1) * (maxT - ov) = f * (maxT - ov) + (maxT - ov) := by ring
              omega)
      rw [tokenChunksAux]
      simp only [hmin, hne, if_false, hstep, hrec]
      rw [winList_eq_cons ids.length maxT ov i hend hov]
      simp [slice, hmin]
      omega
    · have hmin : min (i + maxT) ids.length = ids.length := by omega
      rw [tokenChunksAux]
      simp only [hmin, if_pos rfl]
      rw [winList_eq_last ids.length maxT ov i (by omega)]
      simp [slice]

/-- Window count of `winList` from position `i`, in closed form. -/
theorem winList_length (L maxT ov : Nat) (hov : ov < maxT) :
    ∀ i, i + ov < L →
      (winList L maxT ov i).length = (L - i - ov + (maxT - ov) - 1) / (maxT - ov) := by
  suffices H : ∀ n i, L - i = n → i + ov < L →
      (winList L maxT ov i).length = (L - i - ov + (maxT - ov) - 1) / (maxT - ov) by
    intro i hlt
    exact H (L - i) i rfl hlt
  intro n
  induction n using Nat.strong_induction_on with
  | _ n ih =>
  intro i hn hlt
  by_cases hend : i + maxT < L
  · rw [winList_eq_cons L maxT ov i hend hov]
    have hrec := ih (L - (i + (maxT - ov))) (by omega) (i + (maxT - ov)) rfl (by omega)
    simp only [List.length_cons, hrec]
    have hX : L - i - ov + (maxT - ov) - 1 = (L - (i + (maxT - ov)) - ov + (maxT - ov) - 1) + (maxT - ov) := by
      omega
    rw [hX, Nat.add_div_right _ (by omega : 0 < maxT - ov)]
  · rw [winList_eq_last L maxT ov i (by omega)]
    simp only [List.length_singleton]
    have hd : 0 < maxT - ov := by omega
    have hX : L - i - ov + (maxT - ov) - 1 = (L - i - ov - 1) + (maxT - ov) := by omega
    rw [hX, Nat.add_div_right _ hd, Nat.div_eq_of_lt (by omega)]

/-- Every window list starts at its initial position `i`. -/
theorem winList_head (L maxT ov i : Nat) :
    ∃ e rest, winList L maxT ov i = (i, e) :: rest := by
  by_cases h : i + maxT < L ∧ ov < maxT
  · rw [winList_eq_cons L maxT ov i h.1 h.2]
    exact ⟨i + maxT, _, rfl⟩
  · rw [winList_eq_last L maxT ov i h]
    exact ⟨L, [], rfl⟩

/-- Consecutive windows overlap by exactly `ov` positions: the end of a
window equals the start of the next window plus `ov`. -/
theorem winList_consecutive (L maxT ov : Nat) (hov : ov < maxT) :
    ∀ i j, j + 1 < (winList L maxT ov i).length →
      ((winList L maxT ov i).getD j (0, 0)).2 =
        ((winList L maxT ov i).getD (j + 1) (0, 0)).1 + ov := by
  suffices H : ∀ n i, L - i = n → ∀ j, j + 1 < (winList L maxT ov i).length →
      ((winList L maxT ov i).getD j (0, 0)).2 =
        ((winList L maxT ov i).getD (j + 1) (0, 0)).1 + ov by
    intro i j hj
    exact H (L - i) i rfl j hj
  intro n
  induction n using Nat.strong_induction_on with
  | _ n ih =>
  intro i hn j hj
  by_cases hend : i + maxT < L
  · rw [winList_eq_cons L maxT ov i hend hov] at hj ⊢
    match j with
    | 0 =>
      obtain ⟨e, rest, hw⟩ := winList_head L maxT ov (i + (maxT - ov))
      simp only [List.getD_cons_zero, List.getD_cons_succ, hw]
      omega
    | j + 1 =>
      simp only [List.getD_cons_succ]
      simp only [List.length_cons] at hj
      exact ih (L - (i + (maxT - ov))) (by omega) (i + (maxT - ov)) rfl j (by omega)
  · rw [winList_eq_last L maxT ov i (by omega)] at hj
    simp at hj
  
/-- The final window ends exactly at position `L`. -/
theorem winList_last_end (L maxT ov : Nat) (hov : ov < maxT) :
    ∀ i, ((winList L maxT ov i).getD ((winList L maxT ov i).length - 1) (0, 0)).2 = L := by
  suffices H : ∀ n i, L - i = n →
      ((winList L maxT ov i).getD ((winList L maxT ov i).length - 1) (0, 0)).2 = L by
    intro i
    exact H (L - i) i rfl
  intro n
  induction n using Nat.strong_induction_on with
  | _ n ih =>
  intro i hn
  by_cases hend : i + maxT < L
  · rw [winList_eq_cons L maxT ov i hend hov]
    obtain ⟨e, rest, hw⟩ := winList_head L maxT ov (i + (maxT - ov))
    have hne : (winList L maxT ov (i + (maxT - ov))).length ≠ 0 := by
      rw [hw]; simp
    simp only [List.length_cons]
    have hlen1 : (winList L maxT ov (i + (maxT - ov))).length + 1 - 1 =
        ((winList L maxT ov (i + (maxT - ov))).length - 1) + 1 := by omega
    rw [hlen1, List.getD_cons_succ]
    exact ih (L - (i + (maxT - ov))) (by omega) (i + (maxT - ov)) rfl
  · rw [winList_eq_last L maxT ov i (by omega)]
    simp

/-- Coverage: every position from `i` up to `L` lies inside some window. -/
theorem winList_cover (L maxT ov : Nat) (hov : ov < maxT) (hmax : 0 < maxT) :
    ∀ i p, i ≤ p → p < L → ∃ w ∈ winList L maxT ov i, w.1 ≤ p ∧ p < w.2 := by
  suffices H : ∀ n i, L - i = n → ∀ p, i ≤ p → p < L →
      ∃ w ∈ winList L maxT ov i, w.1 ≤ p ∧ p < w.2 by
    intro i p hip hpL
    exact H (L - i) i rfl p hip hpL
  intro n
  induction n using Nat.strong_induction_on with
  | _ n ih =>
  intro i hn p hip hpL
  by_cases hend : i + maxT < L
  · rw [winList_eq_cons L maxT ov i hend hov]
    by_cases hp : p < i + maxT
    · exact ⟨(i, i + maxT), by simp, hip, hp⟩
    · obtain ⟨w, hw, hw1, hw2⟩ :=
        ih (L - (i + (maxT - ov))) (by omega) (i + (maxT - ov)) rfl p (by omega) hpL
      exact ⟨w, by simp [hw], hw1, hw2⟩
  · rw [winList_eq_last L maxT ov i (by omega)]
    exact ⟨(i, L), by simp, hip, hpL⟩

/-- C2: for a plan with 0 < overlap < max, `_token_chunks` returns the whole
sequence as a single chunk when `L ≤ max`; otherwise it returns
⌈(L-overlap)/(max-overlap)⌉ chunks cut along windows that cover all `L`
positions, where consecutive windows overlap by exactly `overlap` tokens
and the final window ends exactly at position `L`. -/
theorem claim_c2_chunker (ids : List Nat) (maxT ov : Nat) (h1 : 0 < ov) (h2 : ov < maxT) :
    (ids.length ≤ maxT → tokenChunks ids maxT ov = some [ids]) ∧
    (maxT < ids.length →
      tokenChunks ids maxT ov = some ((chunkWindows ids maxT ov).map (slice ids)) ∧
      (chunkWindows ids maxT ov).length =
        (ids.length - ov + (maxT - ov) - 1) / (maxT - ov) ∧
      (∀ j, j + 1 < (chunkWindows ids maxT ov).length →
        ((chunkWindows ids maxT ov).getD j (0, 0)).2 =
          ((chunkWindows ids maxT ov).getD (j + 1) (0, 0)).1 + ov) ∧
      ((chunkWindows ids maxT ov).getD ((chunkWindows ids maxT ov).length - 1) (0, 0)).2 =
        ids.length ∧
      (∀ p, p < ids.length → ∃ w ∈ chunkWindows ids maxT ov, w.1 ≤ p ∧ p < w.2)) := by
  constructor
  · intro hle
    simp [tokenChunks, hle]
  · intro hgt
    have hfuel : ids.length - 0 ≤ (ids.length + 1) * (maxT - ov) := by
      calc ids.length - 0 ≤ (ids.length + 1) * 1 := by omega
        _ ≤ (ids.length + 1) * (maxT - ov) := Nat.mul_le_mul_left _ (by omega)
    have haux := tokenChunksAux_eq_winList ids maxT ov h2 (ids.length + 1) 0 (by omega) hfuel
    refine ⟨?_, ?_, ?_, ?_, ?_⟩
    · rw [tokenChunks, if_neg (by omega)]
      exact haux
    · have := winList_length ids.length maxT ov h2 0 (by omega)
      simpa [chunkWindows] using this
    · intro j hj
      exact winList_consecutive ids.length maxT ov h2 0 j hj
    · exact winList_last_end ids.length maxT ov h2 0
    · intro p hp
      exact winList_cover ids.length maxT ov h2 (by omega) 0 p (by omega) hp

/-- Witness for C2 at a concrete input: ten tokens, window 4, overlap 2. -/
theorem claim_c2_chunker_witness :
    0 < 2 ∧ 2 < 4 ∧
    tokenChunks [0, 1, 2, 3, 4, 5, 6, 7, 8, 9] 4 2 =
      some ((chunkWindows [0, 1, 2, 3, 4, 5, 6, 7, 8, 9] 4 2).map
        (slice [0, 1, 2, 3, 4, 5, 6, 7, 8, 9])) :=
  ⟨by decide, by decide,
    ((claim_c2_chunker [0, 1, 2, 3, 4, 5, 6, 7, 8, 9] 4 2 (by decide) (by decide)).2
      (by decide)).1⟩

/-- C3: when the plan has `overlap_tokens ≥ max_src_tokens` and the token
sequence is longer than `max_src_tokens`, the loop of `_token_chunks`
never finishes for any amount of fuel (the window start stays pinned at
0 because `max(0, end - overlap)` is 0): the routine silently loops
instead of raising a `ConfigurationError` (no such exception exists
anywhere in the source). -/
theorem claim_c3_chunker_loops (ids : List Nat) (maxT ov : Nat)
    (hov : maxT ≤ ov) (hlen : maxT < ids.length) :
    (∀ fuel, tokenChunksAux ids maxT ov fuel 0 = none) ∧
    tokenChunks ids maxT ov = none := by
  have hloop : ∀ fuel, tokenChunksAux ids maxT ov fuel 0 = none := by
    intro fuel
    induction fuel with
    | zero => rfl
    | succ f ih =>
      rw [tokenChunksAux]
      have hmin : min (0 + maxT) ids.length = maxT := by omega
      have hne : ¬ (maxT = ids.length) := by omega
      have hzero : maxT - ov = 0 := by omega
      simp only [hmin, hzero, ih, if_neg hne]
  exact ⟨hloop, by rw [tokenChunks, if_neg (by omega)]; exact hloop _⟩

/-- Witness for C3 at the failing input: five tokens with max = overlap = 2. -/
theorem claim_c3_chunker_loops_witness :
    2 ≤ 2 ∧ 2 < ([10, 11, 12, 13, 14] : List Nat).length ∧
    ((∀ fuel, tokenChunksAux [10, 11, 12, 13, 14] 2 2 fuel 0 = none) ∧
      tokenChunks [10, 11, 12, 13, 14] 2 2 = none) :=
  ⟨by decide, by decide, claim_c3_chunker_loops [10, 11, 12, 13, 14] 2 2 (by decide) (by decide)⟩

/-! ## A small backtracking regex engine

The safeguard layer of the source is built on `re` patterns.  The engine
below enumerates all matches of a pattern at a fixed position in
Python's backtracking priority order (alternation left-first, greedy
repetition longest-first, lazy repetition shortest-first); scanning
functions then take the first candidate at the leftmost matching
position, which is exactly the match `re.sub`/`re.findall` select.
Character classes are ASCII, matching the patterns in the source. -/

/-- Regex syntax: single-character classes, empty string, concatenation,
alternation, star (greedy or lazy), single-character lookahead and
lookbehind (positive or negative), and the word-boundary assertion. -/
inductive Re where
  | cls (p : Char → Bool)
  | eps
  | cat (a b : Re)
  | alt (a b : Re)
  | star (a : Re) (lazyRep : Bool)
  | look (neg ahead : Bool) (p : Char → Bool)
  | wb

/-- Word character for `\b` and `\w`, ASCII model: `[A-Za-z0-9_]`. -/
def isWordChar (c : Char) : Bool := c.isAlphanum || c = '_'

/-- Whitespace for `\s` and `str.strip`, ASCII model. -/
def isWs (c : Char) : Bool :=
  c = ' ' || c = '\t' || c = '\n' || c = '\r' || c = '\x0b' || c = '\x0c'

/-- A word boundary holds when exactly one neighbour is a word char;
`pre` is the reversed text before the position. -/
def atBoundary (pre s : Str) : Bool :=
  (match pre with | [] => false | c :: _ => isWordChar c) !=
  (match s with | [] => false | c :: _ => isWordChar c)

/-- Star matching: all ways to iterate a body matcher `m` at most
`fuel` times, with Python's priority order (greedy: more iterations
first; lazy: fewer iterations first).  Iterations that consume nothing
are cut off, which keeps the recursion well-founded; every star body in
the embedded patterns consumes at least one character, so `|s|` fuel is
always enough. -/
def mtchStar (m : Str → Str → List (Str × Str)) (lz : Bool) : Nat → Str → Str → List (Str × Str)
  | 0, _, s => [([], s)]
  | fuel + 1, pre, s =>
    let stop := [(([] : Str), s)]
    let go :=
      (m pre s).flatMap (fun pr =>
        if pr.1.isEmpty then []
        else
          (mtchStar m lz fuel (pr.1.reverse ++ pre) pr.2).map
            (fun qr => (pr.1 ++ qr.1, qr.2)))
    if lz then stop ++ go else go ++ stop

/-- All ways `re` can match a prefix of `s`, as `(consumed, rest)` pairs
in backtracking priority order; `pre` is the reversed text before the
current position (for lookbehind and word boundaries). -/
def mtch (fuel : Nat) : Re → Str → Str → List (Str × Str)
  | .cls p, _, s =>
    match s with
    | [] => []
    | c :: rest => if p c then [([c], rest)] else []
  | .eps, _, s => [([], s)]
  | .cat a b, pre, s =>
    (mtch fuel a pre s).flatMap (fun pr =>
      (mtch fuel b (pr.1.reverse ++ pre) pr.2).map (fun qr => (pr.1 ++ qr.1, qr.2)))
  | .alt a b, pre, s => mtch fuel a pre s ++ mtch fuel b pre s
  | .star a lz, pre, s => mtchStar (mtch fuel a) lz fuel pre s
  | .look neg ahead p, pre, s =>
    let c? := if ahead then s.head? else pre.head?
    let hit := match c? with | some c => p c | none => false
    if hit != neg then [([], s)] else []
  | .wb, pre, s => if atBoundary pre s then [([], s)] else []

/-- First match of `re` at the current position, Python priority order. -/
def reFirst (re : Re) (pre s : Str) : Option (Str × Str) :=
  (mtch (s.length + 1) re pre s).head?

/-- Model of `pattern.sub(repl, text)` together with the replacement
counter of `_redact` in src/core/safeguards.py: scan left to right, at
each position take the first match, splice in `tok` and continue after
the match, counting one replacement per match.  (The embedded patterns
never match the empty string, so the empty-match branch only keeps the
scan well-founded.) -/
def scanSub (re : Re) (tok : Str) : Nat → Str → Str → Str × Nat
  | 0, _, rem => (rem, 0)
  | fuel + 1, pre, rem =>
    match rem with
    | [] => ([], 0)
    | c :: rest =>
      match reFirst re pre rem with
      | some (u, r) =>
        if u.isEmpty then
          let pr := scanSub re tok fuel (c :: pre) rest
          (c :: pr.1, pr.2)
        else
          let pr := scanSub re tok fuel (u.reverse ++ pre) r
          (tok ++ pr.1, pr.2 + 1)
      | none =>
        let pr := scanSub re tok fuel (c :: pre) rest
        (c :: pr.1, pr.2)

/-- Model of `pattern.sub` over a whole string. -/
def reSub (re : Re) (tok s : Str) : Str × Nat :=
  scanSub re tok (s.length + 1) [] s

/-- Number of non-overlapping matches found by the same left-to-right
scan (`len(pattern.findall(text))`). -/
def scanCount (re : Re) : Nat → Str → Str → Nat
  | 0, _, _ => 0
  | fuel + 1, pre, rem =>
    match rem with
    | [] => 0
    | c :: rest =>
      match reFirst re pre rem with
      | some (u, r) =>
        if u.isEmpty then scanCount re fuel (c :: pre) rest
        else scanCount re fuel (u.reverse ++ pre) r + 1
      | none => scanCount re fuel (c :: pre) rest

/-- `len(pattern.findall(text))` over a whole string. -/
def reCount (re : Re) (s : Str) : Nat :=
  scanCount re (s.length + 1) [] s

/-- The matched substrings of the same scan (`pattern.findall(text)` for
the group-free patterns used in `_fallback_redact`). -/
def scanFind (re : Re) : Nat → Str → Str → List Str
  | 0, _, _ => []
  | fuel + 1, pre, rem =>
    match rem with
    | [] => []
    | c :: rest =>
      match reFirst re pre rem with
      | some (u, r) =>
        if u.isEmpty then scanFind re fuel (c :: pre) rest
        else u :: scanFind re fuel (u.reverse ++ pre) r
      | none => scanFind re fuel (c :: pre) rest

/-- `pattern.findall(text)` over a whole string. -/
def reFindAll (re : Re) (s : Str) : List Str :=
  scanFind re (s.length + 1) [] s

/-- Replacing counts exactly as many matches as the scan finds: the
count returned by `_redact`'s replacement callback equals the number of
matches of the same scan. -/
theorem scanSub_count (re : Re) (tok : Str) :
    ∀ fuel pre rem, (scanSub re tok fuel pre rem).2 = scanCount re fuel pre rem := by
  intro fuel
  induction fuel with
  | zero => intro pre rem; rfl
  | succ f ih =>
    intro pre rem
    match rem with
    | [] => rfl
    | c :: rest =>
      rw [scanSub, scanCount]
      match reFirst re pre (c :: rest) with
      | some (u, r) =>
        by_cases hu : u.isEmpty
        · simp [hu, ih]
        · simp [hu, ih]
      | none => simp only [ih]

/-! ## The regex literals of the source -/

/-- Sequence of regex pieces. -/
def reSeq (l : List Re) : Re := l.foldr .cat .eps

/-- `x+` (greedy). -/
def rePlus (a : Re) : Re := .cat a (.star a false)

/-- `x{n}`. -/
def reTimes (a : Re) (n : Nat) : Re := reSeq (List.replicate n a)

/-- `x{0,n}` (greedy: more repetitions first). -/
def reUpTo (a : Re) : Nat → Re
  | 0 => .eps
  | n + 1 => .alt (.cat a (reUpTo a n)) .eps

/-- `x?` (greedy). -/
def reOpt (a : Re) : Re := .alt a .eps

/-- `x{lo, lo + extra}` (greedy). -/
def reRange (a : Re) (lo extra : Nat) : Re := .cat (reTimes a lo) (reUpTo a extra)

/-- A literal character, matched case-insensitively (`re.IGNORECASE`). -/
def ciChar (c : Char) : Re := .cls (fun x => x.toLower == c)

/-- A literal lowercase word, matched case-insensitively. -/
def ciWord (s : Str) : Re := reSeq (s.map ciChar)

/-- `EMAIL_RE`: the class of characters allowed in the local part. -/
def emailLocalChar (c : Char) : Bool :=
  c.isAlphanum || c = '.' || c = '_' || c = '%' || c = '+' || c = '-'

/-- `EMAIL_RE`: the class of characters allowed in the domain part. -/
def emailDomChar (c : Char) : Bool := c.isAlphanum || c = '.' || c = '-'

/-- `EMAIL_RE = \b[A-Za-z0-9._%+-]+@[A-Za-z0-9.-]+\.[A-Za-z]{2,}\b`. -/
def emailRe : Re :=
  reSeq [.wb, rePlus (.cls emailLocalChar), .cls (· == '@'),
    rePlus (.cls emailDomChar), .cls (· == '.'),
    .cls (·.isAlpha), .cls (·.isAlpha), .star (.cls (·.isAlpha)) false, .wb]

/-- `PHONE_RE = (?<!\d)(?:\+?\d{1,3}[-.\s]?)?(?:\d[ -]?){9,12}(?!\d)`. -/
def phoneRe : Re :=
  reSeq [.look true false (·.isDigit),
    reOpt (reSeq [reOpt (.cls (· == '+')), reRange (.cls (·.isDigit)) 1 2,
      reOpt (.cls (fun c => c = '-' || c = '.' || isWs c))]),
    reRange (.cat (.cls (·.isDigit)) (reOpt (.cls (fun c => c = ' ' || c = '-')))) 9 3,
    .look true true (·.isDigit)]

/-- `AADHAAR_RE = \b\d{4}\s?\d{4}\s?\d{4}\b`. -/
def aadhaarRe : Re :=
  reSeq [.wb, reTimes (.cls (·.isDigit)) 4, reOpt (.cls isWs),
    reTimes (.cls (·.isDigit)) 4, reOpt (.cls isWs),
    reTimes (.cls (·.isDigit)) 4, .wb]

/-- `CREDITCARD_RE = (?:\b(?:\d[ -]*?){13,19}\b)` (`[ -]*?` is lazy). -/
def creditcardRe : Re :=
  reSeq [.wb,
    reRange (.cat (.cls (·.isDigit)) (.star (.cls (fun c => c = ' ' || c = '-')) true)) 13 6,
    .wb]

/-- `APIKEY_HINT_RE = \b(api[_-]?key|secret[_-]?key|token)\b`, IGNORECASE. -/
def apikeyHintRe : Re :=
  reSeq [.wb,
    .alt (reSeq [ciWord ['a', 'p', 'i'], reOpt (.cls (fun c => c = '_' || c = '-')),
        ciWord ['k', 'e', 'y']])
      (.alt (reSeq [ciWord ['s', 'e', 'c', 'r', 'e', 't'],
          reOpt (.cls (fun c => c = '_' || c = '-')), ciWord ['k', 'e', 'y']])
        (ciWord ['t', 'o', 'k', 'e', 'n'])),
    .wb]

/-- The email regex of `_fallback_redact` in src/core/runner.py (same as
`EMAIL_RE`). -/
def fbEmailRe : Re := emailRe

/-- The phone regex of `_fallback_redact`: `(?:\+?\d[\d\-\s]{7,}\d)`. -/
def fbPhoneRe : Re :=
  reSeq [reOpt (.cls (· == '+')), .cls (·.isDigit),
    reTimes (.cls (fun c => c.isDigit || c = '-' || isWs c)) 7,
    .star (.cls (fun c => c.isDigit || c = '-' || isWs c)) false,
    .cls (·.isDigit)]

/-! ## String helpers (Python str methods, ASCII whitespace model) -/

/-- `str.lstrip()`. -/
def lstripWs (s : Str) : Str := s.dropWhile isWs

/-- `str.rstrip()`. -/
def rstripWs (s : Str) : Str := (s.reverse.dropWhile isWs).reverse

/-- `str.strip()`. -/
def stripWs (s : Str) : Str := rstripWs (lstripWs s)

/-- `str.lower()` (ASCII model). -/
def lowerStr (s : Str) : Str := s.map Char.toLower

/-- `s.startswith(p)`. -/
def startsWithStr (p s : Str) : Bool := s.take p.length == p

/-- `p in s` (Python substring containment). -/
def containsSub (needle hay : Str) : Bool :=
  match hay with
  | [] => needle.isEmpty
  | _ :: t => startsWithStr needle hay || containsSub needle t

theorem rstripWs_length_le (s : Str) : (rstripWs s).length ≤ s.length := by
  simp only [rstripWs, List.length_reverse]
  exact ((List.dropWhile_sublist _).length_le).trans (by simp)

/-! ## Safeguard engine: src/core/safeguards.py -/

/-- `SENSITIVE_KEYWORDS` from src/core/safeguards.py. -/
def sensitiveKeywords : List Str :=
  (["password", "passwd", "secret", "credential", "otp",
    "api key", "secret key", "access token", "bearer",
    "ssn", "aadhaar", "pan number", "credit card", "cvv"] : List String).map String.toList

/-- The per-category flag counts of `scan_text`. -/
structure Flags where
  email : Nat
  phone : Nat
  aadhaar : Nat
  creditcard : Nat
  apikeyHint : Nat
  keywords : Nat
deriving DecidableEq, Repr

/-- The per-category replacement counts of `redact_pii`. -/
structure Redactions where
  email : Nat
  phone : Nat
  aadhaar : Nat
  creditcard : Nat
  apikeyHint : Nat
deriving DecidableEq, Repr

/-- `scan_text(text)`: count pattern matches and keyword hits on the
original text. -/
def scanText (text : Str) : Flags :=
  { email := reCount emailRe text
    phone := reCount phoneRe text
    aadhaar := reCount aadhaarRe text
    creditcard := reCount creditcardRe text
    apikeyHint := reCount apikeyHintRe text
    keywords := (sensitiveKeywords.filter
      (fun k => containsSub (lowerStr k) (lowerStr text))).length }

/-- `redact_pii(text)`: apply the five category substitutions in order,
each later pattern seeing the already-redacted text, and record the
number of replacements per category. -/
def redactPii (text : Str) : Str × Redactions :=
  let s1 := reSub emailRe "[EMAIL]".toList text
  let s2 := reSub phoneRe "[PHONE]".toList s1.1
  let s3 := reSub aadhaarRe "[AADHAAR]".toList s2.1
  let s4 := reSub creditcardRe "[CARD]".toList s3.1
  let s5 := reSub apikeyHintRe "[SECRET]".toList s4.1
  (s5.1, ⟨s1.2, s2.2, s3.2, s4.2, s5.2⟩)

/-- `SafeguardReport` dataclass. -/
structure SafeguardReport where
  safeMode : Bool
  maxChars : Nat
  truncated : Bool
  redactions : Redactions
  flags : Flags
deriving DecidableEq, Repr

/-- The truncation marker appended by `apply_safeguards`.  The source
file stores the ellipsis as the UTF-8 bytes c3 a2 e2 82 ac c2 a6, which
Python (reading the file as UTF-8) decodes to the THREE characters
U+00E2, U+20AC, U+00A6 — mojibake of a single "…". -/
def safeguardsMarker : Str := [Char.ofNat 0xE2, Char.ofNat 0x20AC, Char.ofNat 0xA6]

/-- `apply_safeguards(text, safe_mode=..., max_chars=...)`. -/
def applySafeguards (text : Str) (safeMode : Bool) (maxChars : Nat) : Str × SafeguardReport :=
  let original := text
  if safeMode then
    let r := redactPii text
    let truncated := decide (maxChars < r.1.length)
    let out :=
      if maxChars < r.1.length then rstripWs (r.1.take maxChars) ++ safeguardsMarker
      else r.1
    (out, ⟨safeMode, maxChars, truncated, r.2, scanText original⟩)
  else
    (text, ⟨safeMode, maxChars, false, ⟨0, 0, 0, 0, 0⟩, scanText original⟩)

/-! ## Python values and dicts, for the safeguard adapter of the runner -/

/-- The Python values flowing through `_apply_safeguards_adapt`:
strings, ints, bools, lists, tuples, dicts (association lists in
insertion order, later entries winning on duplicate keys, as in
`{**a, **b}`), and `SafeguardReport` dataclass instances (which are NOT
dicts: `isinstance(report, dict)` is false). -/
inductive PyVal where
  | str (s : Str)
  | int (n : Nat)
  | bool (b : Bool)
  | list (elems : List PyVal)
  | tuple (elems : List PyVal)
  | dict (entries : List (String × PyVal))
  | report (r : SafeguardReport)

/-- A Python dict as an insertion-ordered association list. -/
abbrev PyDict := List (String × PyVal)

/-- `d.get(k)`: the value of the LAST entry for `k` (later `**`-splat
entries override earlier ones). -/
def dget (k : String) : PyDict → Option PyVal
  | [] => none
  | (k', v) :: t =>
    match dget k t with
    | some r => some r
    | none => if k' = k then some v else none

/-- `d.setdefault(k, v)`. -/
def dsetdefault (k : String) (v : PyVal) (d : PyDict) : PyDict :=
  match dget k d with
  | some _ => d
  | none => d ++ [(k, v)]

/-- Lexicographic comparison on code points, for Python `sorted`. -/
def strLe : Str → Str → Bool
  | [], _ => true
  | _ :: _, [] => false
  | a :: as, b :: bs => if a = b then strLe as bs else decide (a.toNat < b.toNat)

/-- Insertion into a sorted list of strings. -/
def insertStr (x : Str) : List Str → List Str
  | [] => [x]
  | y :: t => if strLe x y then x :: y :: t else y :: insertStr x t

/-- Insertion sort of strings. -/
def sortStrs (l : List Str) : List Str := l.foldr insertStr []

/-- Duplicate removal keeping first occurrences. -/
def dedupStrs : List Str → List Str → List Str
  | _, [] => []
  | seen, x :: t => if seen.contains x then dedupStrs seen t else x :: dedupStrs (x :: seen) t

/-- Python `sorted(set(l))` for a list of strings. -/
def uniqSorted (l : List Str) : List Str := sortStrs (dedupStrs [] l)

/-- The single-character ellipsis "…" appended by `_fallback_redact`
in src/core/runner.py (this file's marker is a genuine U+2026). -/
def fbMarker : Char := Char.ofNat 0x2026

/-- `_fallback_redact` safe-mode stage 1: email substitution (applied
only when `findall` found matches, as in the source). -/
def fbAfterEmail (output : Str) : Str :=
  if (reFindAll fbEmailRe output).isEmpty then output
  else (reSub fbEmailRe "[REDACTED_EMAIL]".toList output).1

/-- `_fallback_redact` safe-mode stage 2: phone substitution on the
email-redacted text. -/
def fbAfterPhone (output : Str) : Str :=
  if (reFindAll fbPhoneRe (fbAfterEmail output)).isEmpty then fbAfterEmail output
  else (reSub fbPhoneRe "[REDACTED_PHONE]".toList (fbAfterEmail output)).1

/-- The redaction/truncation core of `_fallback_redact` in safe mode:
returns the redacted output text, the truncated flag, and the
`redactions` dict entries (deduplicated and sorted matched strings, as
`sorted(set(...))`).  Truncation only happens when `max_chars` is
truthy (nonzero). -/
def fbRedactedPair (output : Str) (maxChars : Nat) : Str × Bool × PyDict :=
  let emails := reFindAll fbEmailRe output
  let redactions1 : PyDict :=
    if emails.isEmpty then [] else [("emails", .list ((uniqSorted emails).map .str))]
  let phones := reFindAll fbPhoneRe (fbAfterEmail output)
  let redactions2 : PyDict :=
    if phones.isEmpty then redactions1
    else redactions1 ++ [("phones", .list ((uniqSorted phones).map .str))]
  let red2 := fbAfterPhone output
  let doTrunc := maxChars ≠ 0 ∧ maxChars < red2.length
  let red3 := if doTrunc then rstripWs (red2.take maxChars) ++ [fbMarker] else red2
  (red3, decide doTrunc, redactions2)

/-- `_fallback_redact(text, output, max_chars=..., safe_mode=...)`. -/
def fallbackRedact (text output : Str) (maxChars : Nat) (safeMode : Bool) : PyDict :=
  let meta : PyDict :=
    [("engine", .str "fallback".toList), ("safe_mode", .bool safeMode),
     ("max_chars", .int maxChars)]
  if !safeMode then
    [("redacted_output", .str output)] ++ meta ++
      [("truncated", .bool false), ("redactions", .dict [])]
  else
    let r := fbRedactedPair output maxChars
    [("redacted_output", .str r.1)] ++ meta ++
      [("truncated", .bool r.2.1), ("redactions", .dict r.2.2)]

/-- Unfolding of `apply_safeguards` in safe mode. -/
theorem applySafeguards_true_def (text : Str) (maxChars : Nat) :
    applySafeguards text true maxChars =
      ((if maxChars < (redactPii text).1.length then
          rstripWs ((redactPii text).1.take maxChars) ++ safeguardsMarker
        else (redactPii text).1),
       ⟨true, maxChars, decide (maxChars < (redactPii text).1.length),
        (redactPii text).2, scanText text⟩) := rfl

/-- Unfolding of the redacted text of `_fallback_redact` in safe mode. -/
theorem fbRedactedPair_fst_def (output : Str) (maxChars : Nat) :
    (fbRedactedPair output maxChars).1 =
      if maxChars ≠ 0 ∧ maxChars < (fbAfterPhone output).length then
        rstripWs ((fbAfterPhone output).take maxChars) ++ [fbMarker]
      else fbAfterPhone output := rfl

/-- C1 (amended): in safe mode the output of `apply_safeguards` may
exceed `max_chars` by up to the 3 characters of its (mojibake) ellipsis
marker, and the output of `_fallback_redact` by up to the 1 character
of its marker; when the redacted text exceeds `max_chars`,
`apply_safeguards` cuts it to exactly `max_chars` characters, strips
trailing whitespace, appends the marker, and reports `truncated=true`.
The claim's bound `length ≤ max_chars` itself does not hold. -/
theorem claim_c1_truncation (text output : Str) (maxChars : Nat) (hmc : 0 < maxChars) :
    (applySafeguards text true maxChars).1.length ≤ maxChars + 3 ∧
    (maxChars < (redactPii text).1.length →
      (applySafeguards text true maxChars).1 =
        rstripWs ((redactPii text).1.take maxChars) ++ safeguardsMarker ∧
      (applySafeguards text true maxChars).2.truncated = true) ∧
    (fbRedactedPair output maxChars).1.length ≤ maxChars + 1 := by
  refine ⟨?_, ?_, ?_⟩
  · rw [applySafeguards_true_def]
    by_cases h : maxChars < (redactPii text).1.length
    · simp only [if_pos h, List.length_append]
      have h1 := rstripWs_length_le ((redactPii text).1.take maxChars)
      have h2 : ((redactPii text).1.take maxChars).length ≤ maxChars := by
        simp [List.length_take]
      have h3 : safeguardsMarker.length = 3 := rfl
      omega
    · simp only [if_neg h]
      omega
  · intro h
    rw [applySafeguards_true_def]
    simp only [if_pos h]
    exact ⟨trivial, by simp [h]⟩
  · rw [fbRedactedPair_fst_def]
    by_cases h : maxChars ≠ 0 ∧ maxChars < (fbAfterPhone output).length
    · simp only [if_pos h, List.length_append]
      have h1 := rstripWs_length_le ((fbAfterPhone output).take maxChars)
      have h2 : ((fbAfterPhone output).take maxChars).length ≤ maxChars := by
        simp [List.length_take]
      simp only [List.length_singleton]
      omega
    · simp only [if_neg h]
      omega

/-- Witness for C1 at text "hello", output "world", max_chars 3. -/
theorem claim_c1_truncation_witness :
    0 < 3 ∧
    ((applySafeguards "hello".toList true 3).1.length ≤ 3 + 3 ∧
     (3 < (redactPii "hello".toList).1.length →
       (applySafeguards "hello".toList true 3).1 =
         rstripWs ((redactPii "hello".toList).1.take 3) ++ safeguardsMarker ∧
       (applySafeguards "hello".toList true 3).2.truncated = true) ∧
     (fbRedactedPair "world".toList 3).1.length ≤ 3 + 1) :=
  ⟨by decide, claim_c1_truncation "hello".toList "world".toList 3 (by decide)⟩

/-- C1 counterexample: with `max_chars = 3` and input "aaaa" (no PII,
no trailing whitespace), `apply_safeguards` in safe mode returns
"aaa" plus the 3-character marker — 6 characters, exceeding
`max_chars`. -/
theorem claim_c1_counterexample :
    ¬ ((applySafeguards "aaaa".toList true 3).1.length ≤ 3) := by decide

/-- The text seen by the phone pattern in `redact_pii` (after email
replacement). -/
def redactStage1 (t : Str) : Str := (reSub emailRe "[EMAIL]".toList t).1

/-- The text seen by the aadhaar pattern (after phone replacement). -/
def redactStage2 (t : Str) : Str := (reSub phoneRe "[PHONE]".toList (redactStage1 t)).1

/-- The text seen by the card pattern (after aadhaar replacement). -/
def redactStage3 (t : Str) : Str := (reSub aadhaarRe "[AADHAAR]".toList (redactStage2 t)).1

/-- The text seen by the api-key pattern (after card replacement). -/
def redactStage4 (t : Str) : Str := (reSub creditcardRe "[CARD]".toList (redactStage3 t)).1

/-- C4 (amended): each category's recorded redaction count equals the
number of replacements actually performed, i.e. the number of matches
of that category's pattern on the text as it stood when the category
was applied, and each match is replaced by the category's distinct
literal placeholder.  In the concrete instance (safe_mode=true,
max_chars=20, input "Contact me at a@b.com now"), redactions.email = 1
and the redacted text contains "[EMAIL]", but the final output is cut
at 20 characters in the middle of the placeholder, so it contains
"[EMAIL" and not "[EMAIL]". -/
theorem claim_c4_redaction_counts (text : Str) :
    ((redactPii text).2.email = reCount emailRe text ∧
     (redactPii text).2.phone = reCount phoneRe (redactStage1 text) ∧
     (redactPii text).2.aadhaar = reCount aadhaarRe (redactStage2 text) ∧
     (redactPii text).2.creditcard = reCount creditcardRe (redactStage3 text) ∧
     (redactPii text).2.apikeyHint = reCount apikeyHintRe (redactStage4 text)) ∧
    ((applySafeguards "Contact me at a@b.com now".toList true 20).2.redactions.email = 1 ∧
     containsSub "[EMAIL]".toList (redactPii "Contact me at a@b.com now".toList).1 = true ∧
     containsSub "[EMAIL".toList (applySafeguards "Contact me at a@b.com now".toList true 20).1 = true ∧
     (applySafeguards "Contact me at a@b.com now".toList true 20).2.truncated = true) := by
  refine ⟨⟨?_, ?_, ?_, ?_, ?_⟩, by decide, by decide, by decide, by decide⟩
  · simp [redactPii, reSub, reCount, scanSub_count]
  · simp [redactPii, redactStage1, reSub, reCount, scanSub_count]
  · simp [redactPii, redactStage1, redactStage2, reSub, reCount, scanSub_count]
  · simp [redactPii, redactStage1, redactStage2, redactStage3, reSub, reCount, scanSub_count]
  · simp [redactPii, redactStage1, redactStage2, redactStage3, redactStage4, reSub, reCount,
      scanSub_count]

/-- C4 counterexample: the final safeguarded output for the claim's
concrete instance does NOT contain "[EMAIL]" — truncation at
max_chars = 20 cuts the placeholder to "[EMAIL" before appending the
marker. -/
theorem claim_c4_counterexample :
    containsSub "[EMAIL]".toList
      (applySafeguards "Contact me at a@b.com now".toList true 20).1 = false := by decide

/-! ## The safeguard adapter: `_apply_safeguards_adapt` in src/core/runner.py -/

/-- The error classes the adapter's `try/except` distinguishes:
`TypeError` (continue with the next call shape) and any other
exception (break out of the loop to the fallback). -/
inductive PyErr where
  | typeErr
  | otherErr

/-- The in-loop interpretation of one attempt's result: a
`(str, dict)` 2-tuple, a bare string, or a dict are interpretable (a
dict without a string `redacted_output` merges the built-in fallback
under the dict, `{**fb, **res}`); every other shape yields `none` and
the loop continues. -/
def interpAttempt (text output : Str) (maxChars : Nat) (safeMode : Bool) : PyVal → Option PyDict
  | .tuple [.str red, .dict m] =>
    let meta := dsetdefault "truncated" (.bool false)
      (dsetdefault "engine" (.str "user".toList)
        (dsetdefault "max_chars" (.int maxChars)
          (dsetdefault "safe_mode" (.bool safeMode) m)))
    some ([("redacted_output", .str red)] ++ meta)
  | .str s =>
    some [("redacted_output", .str s),
      ("safe_mode", .bool safeMode), ("max_chars", .int maxChars),
      ("engine", .str "user".toList),
      ("truncated", .bool (if safeMode ∧ maxChars ≠ 0 then decide (maxChars ≤ s.length) else false)),
      ("redactions", .dict [])]
  | .dict res =>
    let base : PyDict :=
      [("safe_mode", (dget "safe_mode" res).getD (.bool safeMode)),
       ("max_chars", (dget "max_chars" res).getD (.int maxChars)),
       ("engine", (dget "engine" res).getD (.str "user".toList)),
       ("truncated", (dget "truncated" res).getD (.bool false)),
       ("redactions", (dget "redactions" res).getD (.dict []))]
    match dget "redacted_output" res with
    | some (.str red) => some ([("redacted_output", .str red)] ++ res ++ base)
    | _ =>
      let fb := fallbackRedact text output maxChars safeMode
      some (dsetdefault "engine" (.str "user+fallback".toList) (fb ++ res))
  | _ => none

/-- Whether a returned value has one of the three interpretable shapes. -/
def interpShape : PyVal → Bool
  | .tuple [.str _, .dict _] => true
  | .str _ => true
  | .dict _ => true
  | _ => false

theorem interpAttempt_none (text output : Str) (maxChars : Nat) (safeMode : Bool)
    (v : PyVal) (h : interpShape v = false) :
    interpAttempt text output maxChars safeMode v = none := by
  match v with
  | .int _ => rfl
  | .bool _ => rfl
  | .list _ => rfl
  | .report _ => rfl
  | .str _ => simp [interpShape] at h
  | .dict _ => simp [interpShape] at h
  | .tuple [] => rfl
  | .tuple [x] => cases x <;> rfl
  | .tuple (x :: y :: z :: rest) => cases x <;> cases y <;> rfl
  | .tuple [.int _, y] => rfl
  | .tuple [.bool _, y] => rfl
  | .tuple [.list _, y] => rfl
  | .tuple [.tuple _, y] => rfl
  | .tuple [.dict _, y] => rfl
  | .tuple [.report _, y] => rfl
  | .tuple [.str _, .int _] => rfl
  | .tuple [.str _, .bool _] => rfl
  | .tuple [.str _, .str _] => rfl
  | .tuple [.str _, .list _] => rfl
  | .tuple [.str _, .tuple _] => rfl
  | .tuple [.str _, .report _] => rfl
  | .tuple [.str _, .dict _] => simp [interpShape] at h

/-- The `for fn in attempts` loop of `_apply_safeguards_adapt`: on
`TypeError` continue, on any other exception break to the fallback, on
a result interpret it and return when interpretable; after all attempts
fall back. -/
def adaptGo (text output : Str) (maxChars : Nat) (safeMode : Bool) :
    List (Except PyErr PyVal) → PyDict
  | [] => fallbackRedact text output maxChars safeMode
  | .error .typeErr :: rest => adaptGo text output maxChars safeMode rest
  | .error .otherErr :: _ => fallbackRedact text output maxChars safeMode
  | .ok v :: rest =>
    match interpAttempt text output maxChars safeMode v with
    | some d => d
    | none => adaptGo text output maxChars safeMode rest

/-- `_apply_safeguards_adapt` over a pluggable implementation, given as
the outcomes of its four call shapes (in the fixed priority order of
the `attempts` list). -/
def applySafeguardsAdapt (impl : Nat → Except PyErr PyVal) (text output : Str)
    (maxChars : Nat) (safeMode : Bool) : PyDict :=
  adaptGo text output maxChars safeMode [impl 0, impl 1, impl 2, impl 3]

/-- The outcomes of the four call shapes when the installed
implementation is `core.safeguards.apply_safeguards`:
shape 0, `apply_safeguards(text, output, ...)`, raises `TypeError`
(the function takes one positional argument);
shapes 1 and 2 succeed and return a `(str, SafeguardReport)` tuple
(the report is a dataclass, not a dict);
shape 3, `apply_safeguards({...})`, raises `TypeError` inside
`re.sub`, which expected a string, not a dict. -/
def installedAttempt (text output : Str) (maxChars : Nat) (safeMode : Bool) :
    Nat → Except PyErr PyVal
  | 0 => .error .typeErr
  | 1 => .ok (.tuple [.str (applySafeguards output safeMode maxChars).1,
      .report (applySafeguards output safeMode maxChars).2])
  | 2 => .ok (.tuple [.str (applySafeguards text safeMode maxChars).1,
      .report (applySafeguards text safeMode maxChars).2])
  | _ => .error .typeErr

/-- `_apply_safeguards_adapt` as actually wired in the runner. -/
def adapterInstalled (text output : Str) (maxChars : Nat) (safeMode : Bool) : PyDict :=
  applySafeguardsAdapt (installedAttempt text output maxChars safeMode)
    text output maxChars safeMode

theorem dget_cons_ne (k k' : String) (v : PyVal) (t : PyDict) (h : k' ≠ k) :
    dget k ((k', v) :: t) = dget k t := by
  cases hdg : dget k t with
  | some r => simp [dget, hdg]
  | none => simp [dget, hdg, h]

theorem dget_cons_self (k : String) (v : PyVal) (t : PyDict) (h : dget k t = none) :
    dget k ((k, v) :: t) = some v := by
  simp [dget, h]

/-- `_fallback_redact` always returns a dict whose `redacted_output`
entry is a string (and is not shadowed by a later entry). -/
theorem fallbackRedact_redacted_output (text output : Str) (maxChars : Nat) (safeMode : Bool) :
    ∃ s, dget "redacted_output" (fallbackRedact text output maxChars safeMode) =
      some (.str s) := by
  cases safeMode with
  | false =>
    refine ⟨output, ?_⟩
    rw [show fallbackRedact text output maxChars false =
      ("redacted_output", PyVal.str output) ::
        [("engine", .str "fallback".toList), ("safe_mode", .bool false),
         ("max_chars", .int maxChars), ("truncated", .bool false),
         ("redactions", .dict [])] from rfl]
    rw [dget_cons_self]
    rw [dget_cons_ne _ _ _ _ (by decide), dget_cons_ne _ _ _ _ (by decide),
      dget_cons_ne _ _ _ _ (by decide), dget_cons_ne _ _ _ _ (by decide),
      dget_cons_ne _ _ _ _ (by decide)]
    rfl
  | true =>
    refine ⟨(fbRedactedPair output maxChars).1, ?_⟩
    rw [show fallbackRedact text output maxChars true =
      ("redacted_output", PyVal.str (fbRedactedPair output maxChars).1) ::
        [("engine", .str "fallback".toList), ("safe_mode", .bool true),
         ("max_chars", .int maxChars),
         ("truncated", .bool (fbRedactedPair output maxChars).2.1),
         ("redactions", .dict (fbRedactedPair output maxChars).2.2)] from rfl]
    rw [dget_cons_self]
    rw [dget_cons_ne _ _ _ _ (by decide), dget_cons_ne _ _ _ _ (by decide),
      dget_cons_ne _ _ _ _ (by decide), dget_cons_ne _ _ _ _ (by decide),
      dget_cons_ne _ _ _ _ (by decide)]
    rfl

/-- A failing or uninterpretable attempt: the call raised (type
mismatch or any other error), or returned a value of no interpretable
shape. -/
def attemptFails : Except PyErr PyVal → Prop
  | .error _ => True
  | .ok v => interpShape v = false

theorem adaptGo_all_fail (text output : Str) (maxChars : Nat) (safeMode : Bool) :
    ∀ l, (∀ a ∈ l, attemptFails a) →
      adaptGo text output maxChars safeMode l =
        fallbackRedact text output maxChars safeMode := by
  intro l
  induction l with
  | nil => intro _; rfl
  | cons a rest ih =>
    intro h
    match a with
    | .error .typeErr =>
      show adaptGo text output maxChars safeMode rest = _
      exact ih (fun x hx => h x (List.mem_cons_of_mem _ hx))
    | .error .otherErr => rfl
    | .ok v =>
      have hv : interpShape v = false := h (.ok v) (List.mem_cons_self _ _)
      show (match interpAttempt text output maxChars safeMode v with
        | some d => d
        | none => adaptGo text output maxChars safeMode rest) = _
      rw [interpAttempt_none text output maxChars safeMode v hv]
      exact ih (fun x hx => h x (List.mem_cons_of_mem _ hx))

/-- C5: for any pluggable implementation each of whose call-shape
attempts raises a type-mismatch error, raises any other error, or
returns an uninterpretable shape, `_apply_safeguards_adapt` does not
propagate the failure: it walks the call shapes in priority order and
returns the built-in fallback redaction, whose result always contains
a redacted output string. -/
theorem claim_c5_adapter_robust (impl : Nat → Except PyErr PyVal) (text output : Str)
    (maxChars : Nat) (safeMode : Bool) (h : ∀ i, attemptFails (impl i)) :
    applySafeguardsAdapt impl text output maxChars safeMode =
      fallbackRedact text output maxChars safeMode ∧
    ∃ s, dget "redacted_output" (applySafeguardsAdapt impl text output maxChars safeMode) =
      some (.str s) := by
  have heq : applySafeguardsAdapt impl text output maxChars safeMode =
      fallbackRedact text output maxChars safeMode := by
    apply adaptGo_all_fail
    intro a ha
    simp only [List.mem_cons, List.mem_singleton] at ha
    rcases ha with rfl | rfl | rfl | rfl | hfalse
    · exact h 0
    · exact h 1
    · exact h 2
    · exact h 3
    · simp at hfalse
  refine ⟨heq, ?_⟩
  rw [heq]
  exact fallbackRedact_redacted_output text output maxChars safeMode

/-- An implementation raising `TypeError` on every call shape. -/
def allTypeErr : Nat → Except PyErr PyVal := fun _ => .error .typeErr

/-- Witness for C5: an implementation raising `TypeError` on every call
shape, with text "x", output "y", max_chars 5, safe_mode true. -/
theorem claim_c5_adapter_robust_witness :
    (∀ i, attemptFails (allTypeErr i)) ∧
    (applySafeguardsAdapt allTypeErr "x".toList "y".toList 5 true =
      fallbackRedact "x".toList "y".toList 5 true ∧
    ∃ s, dget "redacted_output"
      (applySafeguardsAdapt allTypeErr "x".toList "y".toList 5 true) =
      some (.str s)) :=
  ⟨fun _ => trivial,
    claim_c5_adapter_robust allTypeErr "x".toList "y".toList 5 true
      (fun _ => trivial)⟩

/-- C6: with `core.safeguards.apply_safeguards` as the installed
implementation, `_apply_safeguards_adapt` returns exactly
`_fallback_redact(text, output, max_chars, safe_mode)` on every input:
the successful call shapes return a `(str, SafeguardReport)` tuple,
whose second element is a dataclass and not a dict, so no attempt is
interpretable and the built-in redaction of core/safeguards.py is never
the one applied. -/
theorem claim_c6_adapter_never_user (text output : Str) (maxChars : Nat) (safeMode : Bool) :
    adapterInstalled text output maxChars safeMode =
      fallbackRedact text output maxChars safeMode ∧
    (∀ s r, interpAttempt text output maxChars safeMode
      (.tuple [.str s, .report r]) = none) :=
  ⟨rfl, fun _ _ => rfl⟩

/-! ## Event persistence: `_persist_event` in src/core/runner.py -/

/-- The event record assembled by `run_on_text`. -/
structure Event where
  timestamp : String
  recipe : String
  model : String
  input : Str
  output : PyVal
  latencyMs : Nat
  safeguards : PyDict
  meta : PyDict

/-- What the persisted `events.json` file can hold: content that parses
as a JSON array of events, or content that fails to parse. -/
inductive StoredContent where
  | goodJson (events : List Event)
  | badJson (raw : String)

/-- The file-system state `_persist_event` touches: the `events.json`
file and a hypothetical backup file (the spec's `.bak.json`). -/
structure FsState where
  eventsFile : Option StoredContent
  bakFile : Option StoredContent

/-- `_persist_event(event)`: read the log (`[]` when the file is
missing, and — via the bare `except` — also `[]` when it fails to
parse), append the event, and overwrite the file.  Nothing is renamed
or backed up, and no error escapes. -/
def persistEvent (st : FsState) (e : Event) : FsState :=
  let allEvents :=
    match st.eventsFile with
    | some (.goodJson l) => l
    | some (.badJson _) => []
    | none => []
  { st with eventsFile := some (.goodJson (allEvents ++ [e])) }

/-- C7 (amended): when the persisted log exists but fails to parse, the
corrupted content is silently discarded: a fresh array containing just
the new event overwrites the file, no backup file is created (nothing
is renamed to `.bak.json`), and the corruption is never surfaced to the
caller (`persistEvent` is total). -/
theorem claim_c7_persist_corrupt (st : FsState) (e : Event) (raw : String)
    (h : st.eventsFile = some (.badJson raw)) :
    persistEvent st e = { eventsFile := some (.goodJson [e]), bakFile := st.bakFile } := by
  simp [persistEvent, h]

/-- A concrete event for the persistence counterexample. -/
def c7Event : Event :=
  { timestamp := "2024-01-01T00:00:00Z", recipe := "summary", model := "m",
    input := "hi".toList, output := .str "- hi".toList, latencyMs := 1,
    safeguards := [], meta := [] }

/-- Witness for C7: persisting over a corrupted log discards it and
starts a fresh array with the new event. -/
theorem claim_c7_persist_corrupt_witness :
    (FsState.mk (some (.badJson "not valid json")) none).eventsFile = some (.badJson "not valid json") ∧
    persistEvent ⟨some (.badJson "not valid json"), none⟩ c7Event =
      { eventsFile := some (.goodJson [c7Event]), bakFile := none } :=
  ⟨rfl, claim_c7_persist_corrupt ⟨some (.badJson "not valid json"), none⟩ c7Event "not valid json" rfl⟩

/-- C7 counterexample: after appending over a corrupted log no backup
of the corrupted content exists anywhere — the claimed rename-aside to
`.bak.json` does not happen (the corrupted content is gone). -/
theorem claim_c7_counterexample :
    (persistEvent ⟨some (.badJson "not valid json"), none⟩ c7Event).bakFile = none ∧
    ¬ ((persistEvent ⟨some (.badJson "not valid json"), none⟩ c7Event).bakFile =
        some (.badJson "not valid json")) := by
  constructor
  · rfl
  · intro hcontra
    simp [persistEvent] at hcontra

/-! ## Recipe registry: src/core/prompts.py -/

/-- The error vocabulary needed to state the spec's contract: the spec
names an `UnknownRecipeError`; the source has no such class and raises
`ValueError`. -/
inductive RecipeErr where
  | valueError (msg : Str)
  | unknownRecipeError (msg : Str)

/-- `_summary_prompt`. -/
def summaryPrompt (text : Str) : Str := "summarize: ".toList ++ text

/-- `_action_items_prompt`. -/
def actionItemsPrompt (text : Str) : Str :=
  ("extract concise action items with owners and deadlines if present. " ++
    "respond as bullet points.\n\n").toList ++ text

/-- `_brainstorm_prompt`. -/
def brainstormPrompt (text : Str) : Str :=
  "brainstorm 5 short ideas to move this forward. use numbered list.\n\n".toList ++ text

/-- The message of the error raised for an unregistered recipe name
(`', '.join(RECIPES.keys())` enumerates the registry in insertion
order). -/
def unknownRecipeMsg (name : String) : Str :=
  "Unknown recipe '".toList ++ name.toList ++
    "'. Available: summary, action_items, brainstorm".toList

/-- `apply_recipe(recipe_name, text)`: look the name up in `RECIPES`
and build the prompt, or raise `ValueError` with the enumeration of
valid names. -/
def applyRecipe (name : String) (text : Str) : Except RecipeErr Str :=
  if name = "summary" then .ok (summaryPrompt text)
  else if name = "action_items" then .ok (actionItemsPrompt text)
  else if name = "brainstorm" then .ok (brainstormPrompt text)
  else .error (.valueError (unknownRecipeMsg name))

/-- Whether a result is the spec's `UnknownRecipeError`. -/
def isUnknownRecipeError : Except RecipeErr Str → Bool
  | .error (.unknownRecipeError _) => true
  | _ => false

/-- C8 (amended): an unregistered name fails with a `ValueError` (not
the spec's `UnknownRecipeError`, which exists nowhere in the source)
whose message enumerates the valid recipe names, and every registered
name returns the recipe's instruction prefix followed by the input
text; in particular `apply_recipe("summary", "hi")` contains the
summary prefix and "hi". -/
theorem claim_c8_apply_recipe (name : String) (text : Str)
    (h1 : name ≠ "summary") (h2 : name ≠ "action_items") (h3 : name ≠ "brainstorm") :
    (applyRecipe name text = .error (.valueError (unknownRecipeMsg name)) ∧
     ∃ pre, unknownRecipeMsg name = pre ++ "summary, action_items, brainstorm".toList) ∧
    (∀ t, applyRecipe "summary" t = .ok ("summarize: ".toList ++ t)) ∧
    (∀ t, applyRecipe "action_items" t =
      .ok (("extract concise action items with owners and deadlines if present. " ++
        "respond as bullet points.\n\n").toList ++ t)) ∧
    (∀ t, applyRecipe "brainstorm" t =
      .ok ("brainstorm 5 short ideas to move this forward. use numbered list.\n\n".toList ++ t)) ∧
    (containsSub "summarize: ".toList "summarize: hi".toList = true ∧
     containsSub "hi".toList "summarize: hi".toList = true ∧
     applyRecipe "summary" "hi".toList = .ok "summarize: hi".toList) := by
  refine ⟨⟨?_, ?_⟩, fun t => rfl, fun t => rfl, fun t => rfl, by decide, by decide, rfl⟩
  · simp [applyRecipe, h1, h2, h3]
  · refine ⟨"Unknown recipe '".toList ++ name.toList ++ "'. Available: ".toList, ?_⟩
    have hB : ("'. Available: summary, action_items, brainstorm").toList =
        "'. Available: ".toList ++ "summary, action_items, brainstorm".toList := by decide
    simp [unknownRecipeMsg, hB]

/-- Witness for C8 at the unregistered name "nope" and text "hi". -/
theorem claim_c8_apply_recipe_witness :
    ("nope" ≠ "summary" ∧ "nope" ≠ "action_items" ∧ "nope" ≠ "brainstorm") ∧
    (applyRecipe "nope" "hi".toList = .error (.valueError (unknownRecipeMsg "nope")) ∧
     ∃ pre, unknownRecipeMsg "nope" = pre ++ "summary, action_items, brainstorm".toList) :=
  ⟨⟨by decide, by decide, by decide⟩,
    (claim_c8_apply_recipe "nope" "hi".toList (by decide) (by decide) (by decide)).1⟩

/-- C8 counterexample: `apply_recipe("nope", "hi")` raises `ValueError`,
not an `UnknownRecipeError` (no such class exists in the source). -/
theorem claim_c8_counterexample :
    isUnknownRecipeError (applyRecipe "nope" "hi".toList) = false ∧
    applyRecipe "nope" "hi".toList = .error (.valueError (unknownRecipeMsg "nope")) := by
  constructor
  · rfl
  · rfl

/-! ## Output normalizer: `_as_bullets`, `_dedupe`, `_limit_bullets`,
`_postprocess_to_bullets` in src/core/runner.py -/

/-- Split on a single character, keeping empty pieces (`str.split`). -/
def splitOnChar (c : Char) : Str → List Str
  | [] => [[]]
  | d :: rest =>
    if d = c then [] :: splitOnChar c rest
    else
      match splitOnChar c rest with
      | [] => [[d]]
      | p :: ps => (d :: p) :: ps

/-- `"\n".join(l)`. -/
def joinNl : List Str → Str
  | [] => []
  | [x] => x
  | x :: y :: rest => x ++ '\n' :: joinNl (y :: rest)

/-- `str.splitlines()` for newline-separated text: split on `'\n'`,
with a trailing newline acting as a terminator and the empty string
yielding no lines. -/
def pySplitlines (s : Str) : List Str :=
  if s = [] then []
  else
    let ps := splitOnChar '\n' s
    if ps.getLast? = some [] then ps.dropLast else ps

/-- The bullet-marker characters of `_BULLET_RE`. -/
def bulletChar (c : Char) : Bool := c = '-' || c = '•' || c = '–'

/-- `_BULLET_RE.sub("", line)` for `^\s*[-•–]\s*`: one anchored match —
leading whitespace, one bullet character, following whitespace — is
removed when present; otherwise the line is unchanged. -/
def stripBulletMarker (s : Str) : Str :=
  match s.dropWhile isWs with
  | [] => s
  | c :: rest => if bulletChar c then rest.dropWhile isWs else s

/-- The strip set of `sent.strip(" \n-•–")`. -/
def sentStripChar (c : Char) : Bool := c = ' ' || c = '\n' || bulletChar c

/-- `str.strip(chars)` for a character predicate. -/
def stripSet (bad : Char → Bool) (s : Str) : Str :=
  ((s.dropWhile bad).reverse.dropWhile bad).reverse

/-- The scan of `re.split(r"(?<=[.!?])\s+", s)`: cut after every
`.`/`!`/`?` that is followed by whitespace, consuming the whitespace
run.  `acc` holds the reversed current piece; `fuel ≥ |s| + 1`. -/
def sentenceSplitAux : Nat → Str → Str → List Str
  | _, acc, [] => [acc.reverse]
  | 0, acc, rem => [acc.reverse ++ rem]
  | fuel + 1, acc, c :: rest =>
    if (c = '.' || c = '!' || c = '?') &&
        (match rest with | d :: _ => isWs d | [] => false) then
      (acc.reverse ++ [c]) :: sentenceSplitAux fuel [] (rest.dropWhile isWs)
    else
      sentenceSplitAux fuel (c :: acc) rest

/-- `re.split(r"(?<=[.!?])\s+", s)`. -/
def sentenceSplit (s : Str) : List Str := sentenceSplitAux (s.length + 1) [] s

/-- Collapse maximal runs of non-word characters to single spaces
(`re.sub(r"\W+", " ", s)`); `fuel ≥ |s| + 1`. -/
def collapseNonWordAux : Nat → Str → Str
  | _, [] => []
  | 0, s => s
  | fuel + 1, c :: rest =>
    if isWordChar c then c :: collapseNonWordAux fuel rest
    else ' ' :: collapseNonWordAux fuel (rest.dropWhile (fun d => !isWordChar d))

/-- The dedup key of `_dedupe`:
`re.sub(r"\W+", " ", ln.lower()).strip()`. -/
def dkey (s : Str) : Str :=
  stripWs (collapseNonWordAux (s.length + 1) (lowerStr s))

/-- The loop of `_dedupe`: keep a line when its key is non-empty and
not seen yet. -/
def dedupeAux : List Str → List Str → List Str
  | _, [] => []
  | seen, x :: t =>
    if dkey x = [] || seen.contains (dkey x) then dedupeAux seen t
    else x :: dedupeAux (dkey x :: seen) t

/-- `_dedupe(lines)`. -/
def dedupe (l : List Str) : List Str := dedupeAux [] l

/-- `_limit_bullets(bullets, min_n, max_n)`. -/
def limitBullets (l : List Str) (minN maxN : Nat) : List Str :=
  if l.length < minN then l else l.take maxN

/-- The recipe-specific trimming of `_postprocess_to_bullets`. -/
def capBullets (recipe : String) (l : List Str) : List Str :=
  if recipe = "summary" then limitBullets l 5 8
  else if recipe = "action_items" then (if 12 < l.length then l.take 12 else l)
  else if recipe = "brainstorm" then (if 12 < l.length then l.take 12 else l)
  else l

/-- `_as_bullets(s)`: with at least two non-empty lines, one bullet per
line (existing markers stripped); otherwise one bullet per sentence;
then dedupe. -/
def asBullets (s : Str) : List Str :=
  let lines := ((pySplitlines s).map stripWs).filter (fun ln => ln ≠ [])
  if 2 ≤ lines.length then
    dedupe (lines.filterMap (fun ln =>
      let x := stripWs (stripBulletMarker ln)
      if x = [] then none else some ("- ".toList ++ x)))
  else
    dedupe ((sentenceSplit (stripWs s)).filterMap (fun sent =>
      let t := stripSet sentStripChar sent
      if t = [] then none else some ("- ".toList ++ t)))

/-! ## `textwrap.fill(body, width=120, subsequent_indent="  ")` -/

/-- Maximal runs of spaces / non-spaces (textwrap's word/whitespace
chunks, after whitespace replacement); `fuel ≥ |s| + 1`. -/
def chunksAux : Nat → Str → List Str
  | _, [] => []
  | 0, s => [s]
  | fuel + 1, c :: rest =>
    if c = ' ' then
      ((c :: rest).takeWhile (fun d => d = ' ')) ::
        chunksAux fuel ((c :: rest).dropWhile (fun d => d = ' '))
    else
      ((c :: rest).takeWhile (fun d => d ≠ ' ')) ::
        chunksAux fuel ((c :: rest).dropWhile (fun d => d ≠ ' '))

/-- Whether a chunk is a whitespace run. -/
def isSpaceRun (chunk : Str) : Bool :=
  match chunk with
  | c :: _ => c = ' '
  | [] => true

/-- Greedily take chunks while the running length stays within the
effective width. -/
def greedyTake (weff : Nat) : Nat → List Str → List Str × List Str
  | _, [] => ([], [])
  | curLen, c :: rest =>
    if curLen + c.length ≤ weff then
      let pr := greedyTake weff (curLen + c.length) rest
      (c :: pr.1, pr.2)
    else ([], c :: rest)

/-- The line-building loop of textwrap's `_wrap_chunks` with the
defaults used by the source (`drop_whitespace`, `break_long_words`;
hyphen splitting is not modelled): per line, drop one leading
whitespace chunk on continuation lines, fill greedily, break an
oversized word at the remaining width, drop a trailing whitespace
chunk, and emit `indent ++ chunks`. -/
def fillAux (width : Nat) (subIndent : Str) : Nat → Bool → List Str → List Str
  | _, _, [] => []
  | 0, _, chunks0 => [chunks0.flatten]
  | fuel + 1, first, chunks0 =>
    let indent : Str := if first then [] else subIndent
    let weff := width - indent.length
    let chunks1 :=
      match chunks0 with
      | c :: rest => if !first && isSpaceRun c then rest else chunks0
      | [] => []
    match chunks1 with
    | [] => []
    | _ :: _ =>
      let gt := greedyTake weff 0 chunks1
      let curLen := (gt.1.map List.length).sum
      let split :=
        match gt.2 with
        | w :: more =>
          if weff < w.length then
            let spaceLeft := if weff < 1 then 1 else weff - curLen
            (gt.1 ++ [w.take spaceLeft], (w.drop spaceLeft) :: more)
          else (gt.1, gt.2)
        | [] => (gt.1, gt.2)
      let cur :=
        match split.1.getLast? with
        | some lc => if isSpaceRun lc then split.1.dropLast else split.1
        | none => split.1
      if cur.isEmpty then fillAux width subIndent fuel false split.2
      else (indent ++ cur.flatten) :: fillAux width subIndent fuel false split.2

/-- `textwrap.fill(s, width, subsequent_indent=...)`: replace
whitespace, chunk, wrap, and join with newlines. -/
def fill (width : Nat) (subIndent : Str) (s : Str) : Str :=
  let s' := s.map (fun c => if isWs c then ' ' else c)
  joinNl (fillAux width subIndent (2 * s'.length + 2) true (chunksAux (s'.length + 1) s'))

/-- One line of the wrap loop of `_postprocess_to_bullets`. -/
def wrapBulletLine (line : Str) : Str :=
  if startsWithStr "- ".toList line then "- ".toList ++ fill 120 "  ".toList (line.drop 2)
  else fill 120 [] line

/-- The bullet list `_postprocess_to_bullets` produces before joining
and wrapping. -/
def producedBullets (recipe : String) (text : Str) : List Str :=
  capBullets recipe (asBullets text)

/-- `_postprocess_to_bullets(recipe, text)`. -/
def postprocessToBullets (recipe : String) (text : Str) : Str :=
  let s := joinNl (producedBullets recipe text)
  stripWs (joinNl ((pySplitlines s).map wrapBulletLine))

/-! ## Support lemmas for the normalizer roundtrip -/

theorem lstripWs_cons_of_not_ws (c : Char) (s : Str) (h : isWs c = false) :
    lstripWs (c :: s) = c :: s := by
  simp [lstripWs, List.dropWhile, h]

theorem rstripWs_eq_self_of_last (s : Str)
    (h : ∀ c, s.getLast? = some c → isWs c = false) : rstripWs s = s := by
  match hrev : s.reverse with
  | [] =>
    have : s = [] := by simpa using congrArg List.reverse hrev
    simp [this, rstripWs]
  | c :: t =>
    have hlast : s.getLast? = some c := by
      rw [← List.head?_reverse, hrev]
      rfl
    have hc := h c hlast
    rw [rstripWs, hrev]
    simp only [List.dropWhile, hc]
    rw [← hrev, s.reverse_reverse]

theorem stripWs_eq_self_of_ends (s : Str)
    (h1 : ∀ c, s.head? = some c → isWs c = false)
    (h2 : ∀ c, s.getLast? = some c → isWs c = false) : stripWs s = s := by
  match s with
  | [] => rfl
  | c :: t =>
    have hc := h1 c rfl
    rw [stripWs, lstripWs_cons_of_not_ws c t hc]
    exact rstripWs_eq_self_of_last _ h2

/-- `strip() = id` splits into its two one-sided halves. -/
theorem strip_parts (x : Str) (hs : stripWs x = x) :
    lstripWs x = x ∧ rstripWs x = x := by
  have hsub : (lstripWs x).Sublist x := List.dropWhile_sublist _
  have h1 : (lstripWs x).length ≤ x.length := hsub.length_le
  have h2 : (stripWs x).length ≤ (lstripWs x).length := rstripWs_length_le _
  rw [hs] at h2
  have hl : lstripWs x = x := hsub.eq_of_length (by omega)
  refine ⟨hl, ?_⟩
  have : rstripWs x = stripWs x := by rw [stripWs, hl]
  rw [this, hs]

theorem last_not_ws_of_rstrip (x : Str) (hr : rstripWs x = x) :
    ∀ c, x.getLast? = some c → isWs c = false := by
  intro c hc
  by_contra hws
  simp only [Bool.not_eq_false] at hws
  have hrev : ∃ t, x.reverse = c :: t := by
    cases hx : x.reverse with
    | nil =>
      have : x = [] := by simpa using congrArg List.reverse hx
      rw [this] at hc
      simp at hc
    | cons d t =>
      have : x.getLast? = some d := by rw [← List.head?_reverse, hx]; rfl
      rw [hc] at this
      exact ⟨t, by simp_all⟩
  obtain ⟨t, ht⟩ := hrev
  have : (rstripWs x).length < x.length := by
    rw [rstripWs, ht]
    simp only [List.dropWhile, hws, List.length_reverse]
    have := (List.dropWhile_sublist (l := t) (p := isWs)).length_le
    have hxlen : x.length = t.length + 1 := by
      have := congrArg List.length ht
      simpa using this
    omega
  rw [hr] at this
  omega

theorem head_not_ws_of_lstrip (x : Str) (hl : lstripWs x = x) :
    ∀ c, x.head? = some c → isWs c = false := by
  intro c hc
  by_contra hws
  simp only [Bool.not_eq_false] at hws
  match x, hc with
  | c :: t, rfl =>
    rw [lstripWs, List.dropWhile] at hl
    rw [hws] at hl
    simp at hl
    have := (List.dropWhile_sublist (l := t) (p := isWs)).length_le
    have := congrArg List.length hl
    simp at this
    omega

theorem splitOnChar_of_not_mem (c : Char) (x : Str) (h : c ∉ x) :
    splitOnChar c x = [x] := by
  induction x with
  | nil => rfl
  | cons d t ih =>
    have hd : d ≠ c := fun hdc => h (hdc ▸ List.mem_cons_self _ _)
    have ht : c ∉ t := fun htc => h (List.mem_cons_of_mem _ htc)
    rw [splitOnChar, if_neg hd, ih ht]

theorem splitOnChar_append (c : Char) (x y : Str) (h : c ∉ x) :
    splitOnChar c (x ++ c :: y) = x :: splitOnChar c y := by
  induction x with
  | nil => simp [splitOnChar]
  | cons d t ih =>
    have hd : d ≠ c := fun hdc => h (hdc ▸ List.mem_cons_self _ _)
    have ht : c ∉ t := fun htc => h (List.mem_cons_of_mem _ htc)
    rw [List.cons_append, splitOnChar, if_neg hd, ih ht]

theorem joinNl_ne_nil (l : List Str) (hne : l ≠ []) (h : ∀ b ∈ l, b ≠ []) :
    joinNl l ≠ [] := by
  match l with
  | [x] =>
    exact h x (List.mem_cons_self _ _)
  | x :: y :: rest =>
    rw [joinNl]
    simp

theorem splitOnChar_joinNl (l : List Str) (hne : l ≠ []) (h : ∀ b ∈ l, '\n' ∉ b) :
    splitOnChar '\n' (joinNl l) = l := by
  match l with
  | [x] => exact splitOnChar_of_not_mem '\n' x (h x (List.mem_cons_self _ _))
  | x :: y :: rest =>
    rw [joinNl, splitOnChar_append '\n' x _ (h x (List.mem_cons_self _ _))]
    have := splitOnChar_joinNl (y :: rest) (by simp)
      (fun b hb => h b (List.mem_cons_of_mem _ hb))
    rw [this]

theorem getLast?_joinNl (l : List Str) (hne : l ≠ []) (h : ∀ b ∈ l, b ≠ []) :
    ∃ b, l.getLast? = some b ∧ (joinNl l).getLast? = b.getLast? := by
  match l with
  | [x] => exact ⟨x, rfl, rfl⟩
  | x :: y :: rest =>
    obtain ⟨b, hb1, hb2⟩ := getLast?_joinNl (y :: rest) (by simp)
      (fun b hb => h b (List.mem_cons_of_mem _ hb))
    refine ⟨b, ?_, ?_⟩
    · rw [List.getLast?_cons_cons]
      exact hb1
    · rw [joinNl, List.getLast?_append]
      have hjne := joinNl_ne_nil (y :: rest) (by simp)
        (fun b hb => h b (List.mem_cons_of_mem _ hb))
      have hbmem : b ∈ (y :: rest) := by
        have hin : b ∈ (y :: rest).getLast? := by rw [hb1]; rfl
        obtain ⟨hne2, heq⟩ := List.mem_getLast?_eq_getLast hin
        rw [heq]
        exact List.getLast_mem hne2
      have hbne : b ≠ [] := h b (List.mem_cons_of_mem _ hbmem)
      obtain ⟨c, hc⟩ : ∃ c, b.getLast? = some c := by
        cases hb : b.getLast? with
        | none => exact absurd (List.getLast?_eq_none_iff.mp hb) hbne
        | some c => exact ⟨c, rfl⟩
      have hcons : ('\n' :: joinNl (y :: rest)).getLast? = (joinNl (y :: rest)).getLast? := by
        cases hJ : joinNl (y :: rest) with
        | nil => exact absurd hJ hjne
        | cons a t => rw [List.getLast?_cons_cons]
      rw [hcons, hb2, hc]
      rfl

theorem head?_joinNl (x : Str) (rest : List Str) (hx : x ≠ []) :
    (joinNl (x :: rest)).head? = x.head? := by
  match rest with
  | [] => rfl
  | y :: t =>
    rw [joinNl]
    match x, hx with
    | c :: s, _ => rfl

theorem pySplitlines_joinNl (l : List Str) (hne : l ≠ [])
    (h : ∀ b ∈ l, b ≠ [] ∧ '\n' ∉ b) : pySplitlines (joinNl l) = l := by
  have hjne : joinNl l ≠ [] := joinNl_ne_nil l hne (fun b hb => (h b hb).1)
  rw [pySplitlines, if_neg hjne]
  rw [splitOnChar_joinNl l hne (fun b hb => (h b hb).2)]
  obtain ⟨b, hb1, _⟩ := getLast?_joinNl l hne (fun b hb => (h b hb).1)
  have hbmem : b ∈ l := by
    have hin : b ∈ l.getLast? := by rw [hb1]; rfl
    obtain ⟨hne2, heq⟩ := List.mem_getLast?_eq_getLast hin
    rw [heq]
    exact List.getLast_mem hne2
  have hbne : b ≠ [] := (h b hbmem).1
  show (if l.getLast? = some [] then l.dropLast else l) = l
  rw [hb1, if_neg (by simpa using hbne)]

theorem filterMap_eq_self_of (l : List Str) (f : Str → Option Str)
    (h : ∀ b ∈ l, f b = some b) : l.filterMap f = l := by
  induction l with
  | nil => rfl
  | cons x t ih =>
    rw [List.filterMap_cons, h x (List.mem_cons_self _ _),
      ih (fun b hb => h b (List.mem_cons_of_mem _ hb))]

theorem map_eq_self_of (l : List Str) (f : Str → Str)
    (h : ∀ b ∈ l, f b = b) : l.map f = l := by
  induction l with
  | nil => rfl
  | cons x t ih =>
    rw [List.map_cons, h x (List.mem_cons_self _ _),
      ih (fun b hb => h b (List.mem_cons_of_mem _ hb))]

/-- Beq on char lists agrees with equality. -/
theorem strContains_iff (seen : List Str) (k : Str) :
    seen.contains k = true ↔ k ∈ seen := by
  simp [List.contains_iff_exists_mem_beq, beq_iff_eq, eq_comm]

theorem dedupeAux_eq_self (l : List Str) :
    ∀ seen, (∀ b ∈ l, dkey b ≠ []) →
      l.Pairwise (fun a b => dkey a ≠ dkey b) →
      (∀ b ∈ l, dkey b ∉ seen) → dedupeAux seen l = l := by
  induction l with
  | nil => intro seen _ _ _; rfl
  | cons x t ih =>
    intro seen h1 h2 h3
    have hk : ¬ (dkey x = [] || seen.contains (dkey x)) = true := by
      simp only [Bool.or_eq_true, decide_eq_true_eq]
      push_neg
      refine ⟨?_, ?_⟩
      · exact fun hc => h1 x (List.mem_cons_self _ _) (by simpa using hc)
      · intro hc
        exact h3 x (List.mem_cons_self _ _) ((strContains_iff seen (dkey x)).mp hc)
    rw [dedupeAux, if_neg hk]
    congr 1
    apply ih
    · exact fun b hb => h1 b (List.mem_cons_of_mem _ hb)
    · exact (List.pairwise_cons.mp h2).2
    · intro b hb hmem
      rcases List.mem_cons.mp hmem with hx | hseen
      · exact (List.pairwise_cons.mp h2).1 b hb hx.symm
      · exact h3 b (List.mem_cons_of_mem _ hb) hseen

theorem dedupeAux_valid (l : List Str) :
    ∀ seen, (∀ b ∈ dedupeAux seen l, dkey b ≠ [] ∧ dkey b ∉ seen) ∧
      (dedupeAux seen l).Pairwise (fun a b => dkey a ≠ dkey b) := by
  induction l with
  | nil => intro seen; exact ⟨fun b hb => absurd hb (by simp [dedupeAux]), by simp [dedupeAux]⟩
  | cons x t ih =>
    intro seen
    by_cases hk : (dkey x = [] || seen.contains (dkey x)) = true
    · rw [dedupeAux, if_pos hk]
      exact ih seen
    · rw [dedupeAux, if_neg hk]
      simp only [Bool.or_eq_true, decide_eq_true_eq] at hk
      push_neg at hk
      obtain ⟨hk1, hk2⟩ := hk
      have hrec := ih (dkey x :: seen)
      constructor
      · intro b hb
        rcases List.mem_cons.mp hb with rfl | hb
        · exact ⟨by simpa using hk1, fun hmem =>
            hk2 ((strContains_iff seen (dkey b)).mpr hmem)⟩
        · obtain ⟨hne, hnmem⟩ := hrec.1 b hb
          exact ⟨hne, fun hmem => hnmem (List.mem_cons_of_mem _ hmem)⟩
      · rw [List.pairwise_cons]
        refine ⟨?_, hrec.2⟩
        intro b hb
        obtain ⟨_, hnmem⟩ := hrec.1 b hb
        intro hcontra
        exact hnmem (hcontra ▸ List.mem_cons_self _ _)

theorem mem_dedupeAux (l : List Str) :
    ∀ seen b, b ∈ dedupeAux seen l → b ∈ l := by
  induction l with
  | nil => intro seen b hb; simp [dedupeAux] at hb
  | cons x t ih =>
    intro seen b hb
    rw [dedupeAux] at hb
    by_cases hk : (dkey x = [] || seen.contains (dkey x)) = true
    · rw [if_pos hk] at hb
      exact List.mem_cons_of_mem _ (ih seen b hb)
    · rw [if_neg hk] at hb
      rcases List.mem_cons.mp hb with rfl | hb
      · exact List.mem_cons_self _ _
      · exact List.mem_cons_of_mem _ (ih _ b hb)

theorem limitBullets_sublist (l : List Str) (n m : Nat) :
    (limitBullets l n m).Sublist l := by
  rw [limitBullets]
  split
  · exact List.Sublist.refl l
  · exact List.take_sublist _ _

theorem cap12_sublist (l : List Str) :
    (if 12 < l.length then l.take 12 else l).Sublist l := by
  split
  · exact List.take_sublist _ _
  · exact List.Sublist.refl l

theorem capBullets_sublist (recipe : String) (l : List Str) :
    (capBullets recipe l).Sublist l := by
  rw [capBullets]
  split
  · exact limitBullets_sublist l 5 8
  · split
    · exact cap12_sublist l
    · split
      · exact cap12_sublist l
      · exact List.Sublist.refl l

theorem limitBullets_idem (l : List Str) :
    limitBullets (limitBullets l 5 8) 5 8 = limitBullets l 5 8 := by
  by_cases h5 : l.length < 5
  · have hinner : limitBullets l 5 8 = l := by rw [limitBullets, if_pos h5]
    rw [hinner, limitBullets, if_pos h5]
  · have hinner : limitBullets l 5 8 = l.take 8 := by rw [limitBullets, if_neg h5]
    rw [hinner]
    by_cases h5' : (l.take 8).length < 5
    · rw [limitBullets, if_pos h5']
    · rw [limitBullets, if_neg h5']
      exact List.take_of_length_le (by simp [List.length_take])

theorem cap12_idem (l : List Str) :
    (if 12 < (if 12 < l.length then l.take 12 else l).length then
      (if 12 < l.length then l.take 12 else l).take 12
     else (if 12 < l.length then l.take 12 else l)) =
    (if 12 < l.length then l.take 12 else l) := by
  by_cases h : 12 < l.length
  · rw [if_pos h]
    have hlen : (l.take 12).length ≤ 12 := by simp [List.length_take]
    rw [if_neg (show ¬ 12 < (l.take 12).length by omega)]
  · rw [if_neg h]
    rw [if_neg h]


theorem capBullets_idem (recipe : String) (l : List Str) :
    capBullets recipe (capBullets recipe l) = capBullets recipe l := by
  by_cases hs : recipe = "summary"
  · subst hs
    show limitBullets (limitBullets l 5 8) 5 8 = limitBullets l 5 8
    exact limitBullets_idem l
  · by_cases ha : recipe = "action_items"
    · subst ha
      show (if 12 < (if 12 < l.length then l.take 12 else l).length then _ else _) = _
      exact cap12_idem l
    · by_cases hb : recipe = "brainstorm"
      · subst hb
        show (if 12 < (if 12 < l.length then l.take 12 else l).length then _ else _) = _
        exact cap12_idem l
      · rw [capBullets, if_neg hs, if_neg ha, if_neg hb,
          capBullets, if_neg hs, if_neg ha, if_neg hb]

theorem asBullets_shape (s : Str) :
    ∀ b ∈ asBullets s, ∃ x, b = '-' :: ' ' :: x ∧ x ≠ [] := by
  intro b hb
  rw [asBullets] at hb
  split at hb
  · have hb2 := mem_dedupeAux _ _ _ hb
    obtain ⟨a, _, hfa⟩ := List.mem_filterMap.mp hb2
    by_cases hx : stripWs (stripBulletMarker a) = []
    · simp only [hx, if_pos rfl] at hfa
      exact absurd hfa (by simp)
    · simp only [if_neg hx] at hfa
      exact ⟨stripWs (stripBulletMarker a), by
        have := Option.some.inj hfa
        exact this.symm, hx⟩
  · have hb2 := mem_dedupeAux _ _ _ hb
    obtain ⟨a, _, hfa⟩ := List.mem_filterMap.mp hb2
    by_cases hx : stripSet sentStripChar a = []
    · simp only [hx, if_pos rfl] at hfa
      exact absurd hfa (by simp)
    · simp only [if_neg hx] at hfa
      exact ⟨stripSet sentStripChar a, by
        have := Option.some.inj hfa
        exact this.symm, hx⟩

theorem asBullets_valid (s : Str) :
    (∀ b ∈ asBullets s, dkey b ≠ []) ∧
    (asBullets s).Pairwise (fun a b => dkey a ≠ dkey b) := by
  rw [asBullets]
  split
  · exact ⟨fun b hb => ((dedupeAux_valid _ []).1 b hb).1, (dedupeAux_valid _ []).2⟩
  · exact ⟨fun b hb => ((dedupeAux_valid _ []).1 b hb).1, (dedupeAux_valid _ []).2⟩

theorem producedBullets_shape (recipe : String) (text : Str) :
    ∀ b ∈ producedBullets recipe text, ∃ x, b = '-' :: ' ' :: x ∧ x ≠ [] := by
  intro b hb
  exact asBullets_shape text b ((capBullets_sublist recipe _).subset hb)

theorem producedBullets_valid (recipe : String) (text : Str) :
    (∀ b ∈ producedBullets recipe text, dkey b ≠ []) ∧
    (producedBullets recipe text).Pairwise (fun a b => dkey a ≠ dkey b) := by
  obtain ⟨h1, h2⟩ := asBullets_valid text
  exact ⟨fun b hb => h1 b ((capBullets_sublist recipe _).subset hb),
    h2.sublist (capBullets_sublist recipe _)⟩

/-- A bullet line `"- " ++ x` with a stripped non-empty body is left
unchanged by `str.strip()`. -/
theorem stripWs_bullet (x : Str) (hx : x ≠ []) (hs : stripWs x = x) :
    stripWs ('-' :: ' ' :: x) = '-' :: ' ' :: x := by
  obtain ⟨hl, hr⟩ := strip_parts x hs
  apply stripWs_eq_self_of_ends
  · intro c hc
    simp only [List.head?] at hc
    cases hc
    rfl
  · intro c hc
    have hx2 : (' ' :: x).getLast? = x.getLast? := by
      match x, hx with
      | a :: t, _ => rw [List.getLast?_cons_cons]
    have hx1 : ('-' :: ' ' :: x).getLast? = x.getLast? := by
      rw [List.getLast?_cons_cons, hx2]
    rw [hx1] at hc
    exact last_not_ws_of_rstrip x hr c hc

/-- A bullet line `"- " ++ x` with a stripped non-empty body maps to
itself through the bullet-marker normalization of `_as_bullets`. -/
theorem bulletLine_roundtrip (x : Str) (hx : x ≠ []) (hs : stripWs x = x) :
    stripWs (stripBulletMarker ('-' :: ' ' :: x)) = x := by
  obtain ⟨hl, _⟩ := strip_parts x hs
  have hdrop : ('-' :: ' ' :: x).dropWhile isWs = '-' :: ' ' :: x := by
    rw [List.dropWhile]
    rfl
  rw [stripBulletMarker, hdrop]
  have hbc : bulletChar '-' = true := rfl
  simp only [hbc, if_true]
  have : (' ' :: x).dropWhile isWs = x.dropWhile isWs := by
    rw [List.dropWhile]
    rfl
  rw [this]
  show stripWs (lstripWs x) = x
  rw [hl, hs]

theorem asBullets_of_good_bullets (l : List Str) (hlen : 2 ≤ l.length)
    (hshape : ∀ b ∈ l, ∃ x, b = '-' :: ' ' :: x ∧ x ≠ [])
    (hbody : ∀ b ∈ l, '\n' ∉ b.drop 2 ∧ stripWs (b.drop 2) = b.drop 2)
    (hkeys : ∀ b ∈ l, dkey b ≠ []) (hpw : l.Pairwise (fun a b => dkey a ≠ dkey b)) :
    asBullets (joinNl l) = l := by
  have hne : l ≠ [] := by
    intro h
    rw [h] at hlen
    simp at hlen
  have hB : ∀ b ∈ l, b ≠ [] ∧ '\n' ∉ b := by
    intro b hb
    obtain ⟨x, rfl, hx⟩ := hshape b hb
    obtain ⟨hnl, _⟩ := hbody _ hb
    refine ⟨by simp, ?_⟩
    intro hmem
    simp only [List.mem_cons] at hmem
    rcases hmem with h | h | h
    · exact absurd h (by decide)
    · exact absurd h (by decide)
    · exact hnl (by simpa using h)
  have hsplit := pySplitlines_joinNl l hne hB
  have hmap : l.map stripWs = l := map_eq_self_of l _ (fun b hb => by
    obtain ⟨x, rfl, hx⟩ := hshape b hb
    exact stripWs_bullet x hx ((hbody _ hb).2))
  have hfil : l.filter (fun ln => ln ≠ []) = l :=
    List.filter_eq_self.mpr (fun b hb => by simpa using (hB b hb).1)
  have hfm : l.filterMap (fun ln =>
      let x := stripWs (stripBulletMarker ln)
      if x = [] then none else some ("- ".toList ++ x)) = l := by
    apply filterMap_eq_self_of
    intro b hb
    obtain ⟨x, rfl, hx⟩ := hshape b hb
    have hrt : stripWs (stripBulletMarker ('-' :: ' ' :: x)) = x :=
      bulletLine_roundtrip x hx ((hbody _ hb).2)
    simp only [hrt, if_neg hx]
    rfl
  have hdd : dedupeAux [] l = l := dedupeAux_eq_self l [] hkeys hpw (by simp)
  rw [asBullets, hsplit, hmap, hfil]
  rw [if_pos hlen, hfm]
  exact hdd

theorem postprocess_of_bullets (recipe : String) (text : Str)
    (hlen : 2 ≤ (producedBullets recipe text).length)
    (hbody : ∀ b ∈ producedBullets recipe text,
      '\n' ∉ b.drop 2 ∧ stripWs (b.drop 2) = b.drop 2 ∧
      fill 120 "  ".toList (b.drop 2) = b.drop 2) :
    postprocessToBullets recipe text = joinNl (producedBullets recipe text) := by
  have hshape := producedBullets_shape recipe text
  have hne : producedBullets recipe text ≠ [] := by
    intro h
    rw [h] at hlen
    simp at hlen
  have hB : ∀ b ∈ producedBullets recipe text, b ≠ [] ∧ '\n' ∉ b := by
    intro b hb
    obtain ⟨x, rfl, hx⟩ := hshape b hb
    obtain ⟨hnl, _, _⟩ := hbody _ hb
    refine ⟨by simp, ?_⟩
    intro hmem
    simp only [List.mem_cons] at hmem
    rcases hmem with h | h | h
    · exact absurd h (by decide)
    · exact absurd h (by decide)
    · exact hnl (by simpa using h)
  have hwrap : (producedBullets recipe text).map wrapBulletLine = producedBullets recipe text := by
    apply map_eq_self_of
    intro b hb
    obtain ⟨x, rfl, hx⟩ := hshape b hb
    obtain ⟨_, _, hfill⟩ := hbody _ hb
    have hstart : startsWithStr "- ".toList ('-' :: ' ' :: x) = true := by
      simp [startsWithStr]
    rw [wrapBulletLine, if_pos hstart]
    have hdrop : ('-' :: ' ' :: x).drop 2 = x := rfl
    rw [hdrop] at hfill ⊢
    rw [hfill]
    rfl
  rw [postprocessToBullets, pySplitlines_joinNl _ hne hB, hwrap]
  apply stripWs_eq_self_of_ends
  · intro c hc
    cases hlist : producedBullets recipe text with
    | nil => exact absurd hlist hne
    | cons b0 rest =>
      rw [hlist] at hc
      obtain ⟨x, hb0, _⟩ := hshape b0 (by rw [hlist]; exact List.mem_cons_self _ _)
      rw [head?_joinNl b0 rest (by rw [hb0]; simp)] at hc
      rw [hb0] at hc
      simp only [List.head?] at hc
      cases hc
      rfl
  · intro c hc
    obtain ⟨b, hb1, hb2⟩ := getLast?_joinNl _ hne (fun b hb => (hB b hb).1)
    have hbmem : b ∈ producedBullets recipe text := by
      have hin : b ∈ (producedBullets recipe text).getLast? := by rw [hb1]; rfl
      obtain ⟨hne2, heq⟩ := List.mem_getLast?_eq_getLast hin
      rw [heq]
      exact List.getLast_mem hne2
    obtain ⟨x, hbx, hx⟩ := hshape b hbmem
    obtain ⟨_, hstrip, _⟩ := hbody _ hbmem
    rw [hbx] at hstrip
    have hstrip' : stripWs x = x := hstrip
    obtain ⟨_, hr⟩ := strip_parts x hstrip'
    rw [hb2] at hc
    rw [hbx] at hc
    have hx2 : ('-' :: ' ' :: x).getLast? = x.getLast? := by
      match x, hx with
      | a :: t, _ =>
        rw [List.getLast?_cons_cons, List.getLast?_cons_cons]
    rw [hx2] at hc
    exact last_not_ws_of_rstrip x hr c hc

/-- C9 (amended): `_postprocess_to_bullets` is idempotent on its own
output provided it produced at least two bullets, each a single line
(no embedded newline in the body), with bodies unchanged by
whitespace-stripping and by the 120-column wrapper.  (Without these
conditions idempotence fails: a single produced bullet gets re-split
at sentence boundaries, and wrapped bullets get re-split at line
breaks.) -/
theorem claim_c9_idempotent (recipe : String) (text : Str)
    (hlen : 2 ≤ (producedBullets recipe text).length)
    (hbody : ∀ b ∈ producedBullets recipe text,
      '\n' ∉ b.drop 2 ∧ stripWs (b.drop 2) = b.drop 2 ∧
      fill 120 "  ".toList (b.drop 2) = b.drop 2) :
    postprocessToBullets recipe (postprocessToBullets recipe text) =
      postprocessToBullets recipe text := by
  have h1 := postprocess_of_bullets recipe text hlen hbody
  have hroundAs : asBullets (joinNl (producedBullets recipe text)) =
      producedBullets recipe text := by
    apply asBullets_of_good_bullets _ hlen (producedBullets_shape recipe text)
    · intro b hb
      obtain ⟨hnl, hstrip, _⟩ := hbody b hb
      exact ⟨hnl, hstrip⟩
    · exact (producedBullets_valid recipe text).1
    · exact (producedBullets_valid recipe text).2
  have hPB2 : producedBullets recipe (joinNl (producedBullets recipe text)) =
      producedBullets recipe text := by
    rw [producedBullets, hroundAs]
    exact capBullets_idem recipe (asBullets text)
  rw [h1]
  have h2 := postprocess_of_bullets recipe (joinNl (producedBullets recipe text))
    (by rw [hPB2]; exact hlen) (by rw [hPB2]; exact hbody)
  rw [h2, hPB2]

/-- Witness for C9: two short distinct bullets ("alpha", "beta"). -/
theorem claim_c9_idempotent_witness :
    (2 ≤ (producedBullets "summary" "alpha\nbeta".toList).length ∧
     ∀ b ∈ producedBullets "summary" "alpha\nbeta".toList,
       '\n' ∉ b.drop 2 ∧ stripWs (b.drop 2) = b.drop 2 ∧
       fill 120 "  ".toList (b.drop 2) = b.drop 2) ∧
    postprocessToBullets "summary" (postprocessToBullets "summary" "alpha\nbeta".toList) =
      postprocessToBullets "summary" "alpha\nbeta".toList :=
  ⟨⟨by decide, by decide⟩,
    claim_c9_idempotent "summary" "alpha\nbeta".toList (by decide) (by decide)⟩

/-- C9 counterexample: on input "Hello world. Bye\nhello world bye" the
normalizer produces the single bullet "- Hello world. Bye" (the second
line is a case/punctuation duplicate); re-running it splits that bullet
at the sentence boundary into "- Hello world." and "- Bye", so the
normalizer is not idempotent on its own output. -/
theorem claim_c9_counterexample :
    postprocessToBullets "summary"
      (postprocessToBullets "summary" "Hello world. Bye\nhello world bye".toList) ≠
    postprocessToBullets "summary" "Hello world. Bye\nhello world bye".toList := by decide

/-! ## Run orchestrator: `run_on_text` in src/core/runner.py -/

/-- `_clean_text` stage 2: collapse runs of 3+ newlines to exactly two
(`re.sub(r"\n{3,}", "\n\n", s)`); `fuel ≥ |s| + 1`. -/
def collapseNl : Nat → Str → Str
  | _, [] => []
  | 0, s => s
  | fuel + 1, c :: rest =>
    if c = '\n' then
      (if 3 ≤ ((c :: rest).takeWhile (fun d => d = '\n')).length
       then ['\n', '\n']
       else (c :: rest).takeWhile (fun d => d = '\n')) ++
        collapseNl fuel ((c :: rest).dropWhile (fun d => d = '\n'))
    else c :: collapseNl fuel rest

/-- `_clean_text` stage 3: collapse runs of spaces/tabs to one space
(`re.sub(r"[ \t]+", " ", s)`); `fuel ≥ |s| + 1`. -/
def collapseSpTab : Nat → Str → Str
  | _, [] => []
  | 0, s => s
  | fuel + 1, c :: rest =>
    if c = ' ' || c = '\t' then
      ' ' :: collapseSpTab fuel ((c :: rest).dropWhile (fun d => d = ' ' || d = '\t'))
    else c :: collapseSpTab fuel rest

/-- `_clean_text(s)`. -/
def cleanText (s : Str) : Str :=
  let s1 := s.map (fun c => if c = '\r' then '\n' else c)
  let s2 := collapseNl (s1.length + 1) s1
  stripWs (collapseSpTab (s2.length + 1) s2)

/-- The per-task default models of the runner. -/
def MODEL_SUM_FAST : String := "sshleifer/distilbart-cnn-12-6"

/-- Quality summary model (unused by the heuristics below but part of
the configuration). -/
def MODEL_SUM_QUALITY : String := "google/pegasus-cnn_dailymail"

/-- Long-input summary model. -/
def MODEL_SUM_LONG : String := "pszemraj/long-t5-tglobal-base-16384-book-summary"

/-- Fast instruction model. -/
def MODEL_TXT2TXT_FAST : String := "google/flan-t5-small"

/-- Quality instruction model (unused by the heuristics). -/
def MODEL_TXT2TXT_QUALITY : String := "google/flan-t5-base"

/-- `DEFAULT_MODEL`. -/
def DEFAULT_MODEL : String := MODEL_SUM_FAST

/-- `DEFAULT_RECIPE`. -/
def DEFAULT_RECIPE : String := "summary"

/-- `_resolve_task(recipe)`. -/
def resolveTask (recipe : String) : String :=
  if recipe = "summary" then "summarization" else "text2text-generation"

/-- `str.strip()` on a Lean `String`. -/
def stripString (s : String) : String := String.mk (stripWs s.toList)

/-- The recipe/length heuristic of `_choose_model` when no usable
override was requested. -/
def chooseModelDefault (recipe : String) (textLenChars : Nat) : String :=
  if recipe = "summary" then
    (if 4000 < textLenChars then MODEL_SUM_LONG else MODEL_SUM_FAST)
  else if recipe = "action_items" then MODEL_TXT2TXT_FAST
  else if recipe = "brainstorm" then MODEL_TXT2TXT_FAST
  else MODEL_SUM_FAST

/-- `_choose_model(recipe, requested, text_len_chars)`: a non-empty
requested model (with non-empty strip) wins. -/
def chooseModel (recipe : String) (requested : Option String) (textLenChars : Nat) : String :=
  match requested with
  | some r =>
    if r ≠ "" ∧ stripString r ≠ "" then stripString r
    else chooseModelDefault recipe textLenChars
  | none => chooseModelDefault recipe textLenChars

/-- Generation parameters (floats as exact rationals). -/
structure GenKwargs where
  maxLength : Nat
  minLength : Nat
  doSample : Bool
  numBeams : Option Nat := none
  noRepeatNgramSize : Option Nat := none
  lengthPenalty : Option Rat := none
  earlyStopping : Option Bool := none
  topP : Option Rat := none
  topK : Option Nat := none
  temperature : Option Rat := none
  numReturnSequences : Option Nat := none
deriving DecidableEq

/-- The fallback generation parameters at the end of
`_gen_kwargs_for_recipe`. -/
def fallbackGenKwargs : GenKwargs :=
  { maxLength := 160, minLength := 60, doSample := false, numBeams := some 4,
    noRepeatNgramSize := some 3 }

/-- `_gen_kwargs_for_recipe(recipe)`. -/
def genKwargsForRecipe (recipe : String) : GenKwargs :=
  if recipe = "summary" then
    { maxLength := 160, minLength := 60, doSample := false, numBeams := some 4,
      noRepeatNgramSize := some 3, lengthPenalty := some 1, earlyStopping := some true }
  else if recipe = "action_items" then
    { maxLength := 180, minLength := 60, doSample := false, numBeams := some 4,
      noRepeatNgramSize := some 3, lengthPenalty := some 1, earlyStopping := some true }
  else if recipe = "brainstorm" then
    { maxLength := 200, minLength := 70, doSample := true, topP := some (92 / 100),
      topK := some 50, temperature := some (95 / 100), noRepeatNgramSize := some 3,
      numReturnSequences := some 1 }
  else fallbackGenKwargs

/-- The `RECIPES` instruction prefixes of the runner
(`RECIPES.get(recipe, "")`). -/
def runnerInstr (recipe : String) : String :=
  if recipe = "summary" then
    "Summarize the following STORY as clear bullet points. " ++
    "Focus on plot beats, key events, and changes to the main character. " ++
    "Return 5–8 concise bullet points:\n"
  else if recipe = "action_items" then
    "From the following text, extract ACTION ITEMS as bullet points. " ++
    "Each bullet must start with an imperative verb and include owner if present and an optional due hint. " ++
    "Do NOT invent owners or dates. Return 5–10 bullets if available:\n"
  else if recipe = "brainstorm" then
    "Brainstorm creative IDEAS based on the following text. " ++
    "Return 6–10 short, non-redundant bullet points. " ++
    "Make them concrete, varied, and useful; avoid fluff:\n"
  else ""

/-- The external collaborators of the orchestrator, as oracles: the
inference engine (`_generate_single` after pipeline-output extraction),
the tokenizer (encode/decode and `model_max_length`), and the clock. -/
structure RunEnv where
  gen : String → String → Str → GenKwargs → Str
  encode : String → Str → List Nat
  decode : String → List Nat → Str
  modelMaxLength : String → Option Nat
  timestamp : String
  latencyMs : Nat

/-- `min(tok.model_max_length or 1024, 2048)` (Python `or` treats 0 and
`None` as falsy). -/
def effMaxSrc (env : RunEnv) (model : String) : Nat :=
  min (match env.modelMaxLength model with
       | some n => if n = 0 then 1024 else n
       | none => 1024) 2048

/-- `_map_reduce_generate`: chunk, generate per chunk with the
instruction prefix, merge with newlines, re-bullet.  `none` when the
chunk loop does not terminate. -/
def mapReduceGenerate (env : RunEnv) (task model : String) (fullText : Str)
    (recipe : String) (kw : GenKwargs) : Option Str :=
  match tokenChunks (env.encode model fullText) (effMaxSrc env model - 64) 48 with
  | none => none
  | some chunks =>
    let parts := chunks.map (fun ids =>
      stripWs (env.gen task model ((runnerInstr recipe).toList ++ '\n' :: env.decode model ids) kw))
    some (postprocessToBullets recipe (joinNl parts))

/-- `run_on_text(text, recipe, model_name, safe_mode, max_chars,
persist, meta)`: normalize, pick task/model/params, single-pass or
chunked generation, bullet normalization, safeguards through the
adapter, event assembly, optional persistence. -/
def runOnText (env : RunEnv) (st : FsState) (text : Str) (recipe : String)
    (modelName : Option String) (safeMode : Bool) (maxChars : Nat)
    (persist : Bool) (meta : Option PyDict) : Option (Event × FsState) :=
  let cleaned := cleanText text
  let task := resolveTask recipe
  let effModel := chooseModel recipe modelName cleaned.length
  let kw := genKwargsForRecipe recipe
  let prompt := (runnerInstr recipe).toList ++ '\n' :: cleaned
  let needsChunks := effMaxSrc env effModel - 64 < (env.encode effModel cleaned).length
  let raw? := if needsChunks then mapReduceGenerate env task effModel cleaned recipe kw
              else some (postprocessToBullets recipe (env.gen task effModel prompt kw))
  match raw? with
  | none => none
  | some raw =>
    let sg := adapterInstalled cleaned raw maxChars safeMode
    let ev : Event :=
      { timestamp := env.timestamp, recipe := recipe, model := effModel,
        input := cleaned.take 2000,
        output := (dget "redacted_output" sg).getD (.str raw),
        latencyMs := env.latencyMs, safeguards := sg, meta := meta.getD [] }
    some (ev, if persist then persistEvent st ev else st)

/-- C10: a recipe name outside the registered set never produces an
unknown-recipe failure in `run_on_text`: it is processed silently with
an empty instruction prefix, the fallback generation parameters, the
text2text-generation task, and (with the default `model_name`) the
default summary model, and still produces an Event. -/
theorem claim_c10_unknown_recipe (env : RunEnv) (st : FsState) (text : Str)
    (meta : Option PyDict) (r : String)
    (h1 : r ≠ "summary") (h2 : r ≠ "action_items") (h3 : r ≠ "brainstorm")
    (hsingle : (env.encode DEFAULT_MODEL (cleanText text)).length ≤
      effMaxSrc env DEFAULT_MODEL - 64) :
    resolveTask r = "text2text-generation" ∧
    runnerInstr r = "" ∧
    genKwargsForRecipe r = fallbackGenKwargs ∧
    chooseModel r (some DEFAULT_MODEL) (cleanText text).length = DEFAULT_MODEL ∧
    DEFAULT_MODEL = MODEL_SUM_FAST ∧
    (∃ ev st', runOnText env st text r (some DEFAULT_MODEL) true 600 false meta =
        some (ev, st') ∧
      ev.recipe = r ∧ ev.model = MODEL_SUM_FAST ∧ st' = st ∧
      ev.output = (dget "redacted_output" (adapterInstalled (cleanText text)
          (postprocessToBullets r (env.gen "text2text-generation" MODEL_SUM_FAST
            ('\n' :: cleanText text) fallbackGenKwargs)) 600 true)).getD
        (.str (postprocessToBullets r (env.gen "text2text-generation" MODEL_SUM_FAST
          ('\n' :: cleanText text) fallbackGenKwargs)))) := by
  have hTask : resolveTask r = "text2text-generation" := by
    rw [resolveTask, if_neg h1]
  have hInstr : runnerInstr r = "" := by
    rw [runnerInstr, if_neg h1, if_neg h2, if_neg h3]
  have hKw : genKwargsForRecipe r = fallbackGenKwargs := by
    rw [genKwargsForRecipe, if_neg h1, if_neg h2, if_neg h3]
  have hStrip : stripString DEFAULT_MODEL = DEFAULT_MODEL := by decide
  have hModel : chooseModel r (some DEFAULT_MODEL) (cleanText text).length = DEFAULT_MODEL := by
    show (if DEFAULT_MODEL ≠ "" ∧ stripString DEFAULT_MODEL ≠ "" then stripString DEFAULT_MODEL
      else chooseModelDefault r (cleanText text).length) = DEFAULT_MODEL
    rw [if_pos ⟨by decide, by rw [hStrip]; decide⟩, hStrip]
  have hnc : ¬ (effMaxSrc env DEFAULT_MODEL - 64 <
      (env.encode DEFAULT_MODEL (cleanText text)).length) := by omega
  refine ⟨hTask, hInstr, hKw, hModel, rfl, ?_⟩
  simp only [runOnText, hModel, hTask, hKw, hInstr]
  rw [if_neg hnc]
  refine ⟨_, _, rfl, ?_, ?_, ?_, ?_⟩ <;> rfl

/-- A concrete oracle environment for the C10 witness. -/
def c10Env : RunEnv :=
  { gen := fun _ _ _ _ => "ok".toList, encode := fun _ _ => [],
    decode := fun _ _ => [], modelMaxLength := fun _ => none,
    timestamp := "t", latencyMs := 0 }

/-- Witness for C10 at the unregistered recipe name "nope". -/
theorem claim_c10_unknown_recipe_witness :
    (("nope" : String) ≠ "summary" ∧ ("nope" : String) ≠ "action_items" ∧
     ("nope" : String) ≠ "brainstorm" ∧
     (c10Env.encode DEFAULT_MODEL (cleanText "hello".toList)).length ≤
       effMaxSrc c10Env DEFAULT_MODEL - 64) ∧
    (∃ ev st', runOnText c10Env ⟨none, none⟩ "hello".toList "nope" (some DEFAULT_MODEL)
        true 600 false none = some (ev, st') ∧
      ev.recipe = "nope" ∧ ev.model = MODEL_SUM_FAST) :=
  ⟨⟨by decide, by decide, by decide, by decide⟩, by
    obtain ⟨ev, st', heq, hr, hm, _, _⟩ :=
      (claim_c10_unknown_recipe c10Env ⟨none, none⟩ "hello".toList none "nope"
        (by decide) (by decide) (by decide) (by decide)).2.2.2.2.2
    exact ⟨ev, st', heq, hr, hm⟩⟩

end AIOps
